import Mathlib

/-!
Verification of the cc-convo transcript tool (`src/cc-convo/src/main.rs`):
the record-normalization pipeline (`parse_session_events` and the extraction
helpers), the search engine (`search_sessions`), the context-preview and
truncation helpers, and the HTML export renderer.

Modelling conventions:
* a Rust `String`/`&str` is a list of characters (`Str`); byte-level
  operations (`str::len`, byte slicing, `find`) are modelled through the
  UTF-8 size of each character;
* a byte-slicing operation that would panic in Rust (slicing that does not
  fall on a character boundary) is modelled by `none`, and this possible
  panic is propagated through every function that can reach it;
* `serde_json::Value` is the inductive `Json`; `serde_json::from_str` is an
  explicit parameter `parse : Str → Option Json` of the normalizer, and a
  compiled `regex::Regex` is a match predicate `Str → Bool` produced by an
  explicit compilation parameter;
* a file is supplied to the normalizer as its list of lines (the `BufReader`
  line iterator of the source);
* `f64` relevance scores are modelled as exact rationals.
-/

namespace CcConvo

set_option maxRecDepth 8000

abbrev Str := List Char

def strOf (s : String) : Str := s.data

/-- Models Rust `char::is_whitespace` (the Unicode `White_Space` property). -/
def isRustWhitespace (c : Char) : Bool :=
  let n := c.toNat
  (9 ≤ n && n ≤ 13) || n == 32 || n == 0x85 || n == 0xA0 || n == 0x1680 ||
    (0x2000 ≤ n && n ≤ 0x200A) || n == 0x2028 || n == 0x2029 || n == 0x202F ||
    n == 0x205F || n == 0x3000

/-- Models `s.trim().is_empty()`: true iff every character is whitespace. -/
def trimEmpty (s : Str) : Bool := s.all isRustWhitespace

/-- Models Rust `str::to_lowercase` character-wise (ASCII letters are folded;
other characters are kept as they are). -/
def lowerChar (c : Char) : Char :=
  if 65 ≤ c.toNat && c.toNat ≤ 90 then Char.ofNat (c.toNat + 32) else c

def lowerStr (s : Str) : Str := s.map lowerChar

/-- Models `hay.contains(needle)` (substring containment). -/
def strContains : Str → Str → Bool
  | [], needle => needle.isEmpty
  | hay@(_ :: t), needle => needle.isPrefixOf hay || strContains t needle

/-- Skip counter based scan behind `countMatches`. -/
def cmGo (needle : Str) : Str → Nat → Nat
  | [], _ => 0
  | c :: t, 0 =>
      if needle.isPrefixOf (c :: t) then 1 + cmGo needle t (needle.length - 1)
      else cmGo needle t 0
  | _ :: t, k + 1 => cmGo needle t k

/-- Models `hay.matches(needle).count()`: non-overlapping occurrences scanned
left to right; an empty pattern matches once per position plus once at the
end. -/
def countMatches (hay needle : Str) : Nat :=
  if needle.isEmpty then hay.length + 1 else cmGo needle hay 0

def splitWsGo : Str → Str → List Str
  | [], acc => if acc.isEmpty then [] else [acc.reverse]
  | c :: t, acc =>
      if isRustWhitespace c then
        if acc.isEmpty then splitWsGo t [] else acc.reverse :: splitWsGo t []
      else splitWsGo t (c :: acc)

/-- Models `str::split_whitespace`. -/
def splitWs (s : Str) : List Str := splitWsGo s []

/-- UTF-8 encoded size of one character. -/
def utf8Size (c : Char) : Nat :=
  if c.toNat < 0x80 then 1
  else if c.toNat < 0x800 then 2
  else if c.toNat < 0x10000 then 3
  else 4

/-- Models Rust `str::len` (UTF-8 byte length). -/
def utf8Len (s : Str) : Nat := (s.map utf8Size).sum

/-- The characters making up the first `n` bytes of `s`; `none` when `n` does
not fall on a character boundary or exceeds the byte length (the conditions
under which Rust byte slicing panics or `get` rejects the range). -/
def byteTake : Str → Nat → Option Str
  | _, 0 => some []
  | [], _ + 1 => none
  | c :: t, n + 1 =>
      if utf8Size c ≤ n + 1 then (byteTake t (n + 1 - utf8Size c)).map (c :: ·)
      else none

/-- The characters of `s` after its first `n` bytes; boundary conditions as in
`byteTake`. -/
def byteDrop : Str → Nat → Option Str
  | s, 0 => some s
  | [], _ + 1 => none
  | c :: t, n + 1 =>
      if utf8Size c ≤ n + 1 then byteDrop t (n + 1 - utf8Size c)
      else none

/-- Models `s.get(a..b)` on Rust strings: `none` on an inverted range, an
out-of-bounds index, or an index that is not a character boundary. -/
def byteSlice (s : Str) (a b : Nat) : Option Str :=
  if b < a then none else (byteDrop s a).bind (fun t => byteTake t (b - a))

/-- Models `hay.find(needle)`: the byte index of the first occurrence. -/
def byteFind : Str → Str → Option Nat
  | [], needle => if needle.isEmpty then some 0 else none
  | hay@(c :: t), needle =>
      if needle.isPrefixOf hay then some 0
      else (byteFind t needle).map (utf8Size c + ·)

/-- Models the shared `ellipsize` helper:
`if s.len() <= max { s } else { format!("{}...", &s[..max.saturating_sub(3)]) }`.
`none` models the panic of `&s[..k]` when `k` splits a character. -/
def ellipsize (s : Str) (max : Nat) : Option Str :=
  if utf8Len s ≤ max then some s
  else (byteTake s (max - 3)).map (· ++ strOf "...")

/-- Models `s.replace(newline, " ")`. -/
def replaceNl (s : Str) : Str := s.map (fun c => if c = '\n' then ' ' else c)

/-- `parts.join(sep)` for the newline separator used by content extraction. -/
def joinNl : List Str → Str
  | [] => []
  | [p] => p
  | p :: q :: r => p ++ '\n' :: joinNl (q :: r)

/-- Models `serde_json::Value`. -/
inductive Json where
  | null
  | bool (b : Bool)
  | num (n : Int)
  | str (s : Str)
  | arr (items : List Json)
  | obj (fields : List (Str × Json))

def lookupField : List (Str × Json) → Str → Option Json
  | [], _ => none
  | (k, x) :: rest, key => if k = key then some x else lookupField rest key

/-- Models `Value::get(key)` for object field access. -/
def jget (v : Json) (key : Str) : Option Json :=
  match v with
  | .obj fields => lookupField fields key
  | _ => none

/-- Models `Value::as_str`. -/
def Json.asStr : Json → Option Str
  | .str s => some s
  | _ => none

def getStrField (v : Json) (key : Str) : Option Str := (jget v key).bind Json.asStr

def digitChar (n : Nat) : Char :=
  match n with
  | 0 => '0' | 1 => '1' | 2 => '2' | 3 => '3' | 4 => '4'
  | 5 => '5' | 6 => '6' | 7 => '7' | 8 => '8' | _ => '9'

def natReprGo : Nat → Nat → Str
  | 0, _ => []
  | fuel + 1, n =>
      if n < 10 then [digitChar n]
      else natReprGo fuel (n / 10) ++ [digitChar (n % 10)]

/-- Decimal rendering of a natural number. -/
def natRepr (n : Nat) : Str := natReprGo (n + 1) n

/-- Decimal rendering of an integer (display formatting and JSON numbers). -/
def intRepr (i : Int) : Str :=
  if i < 0 then '-' :: natRepr i.natAbs else natRepr i.toNat

def hexDigitChar (n : Nat) : Char :=
  if n < 10 then digitChar n else Char.ofNat (87 + n)

/-- JSON string escaping as `serde_json` performs it. -/
def escJsonChar (c : Char) : Str :=
  if c = '"' then ['\\', '"']
  else if c = '\\' then ['\\', '\\']
  else if c = '\n' then ['\\', 'n']
  else if c = '\r' then ['\\', 'r']
  else if c = '\t' then ['\\', 't']
  else if c.toNat = 8 then ['\\', 'b']
  else if c.toNat = 12 then ['\\', 'f']
  else if c.toNat < 32 then
    ['\\', 'u', '0', '0', hexDigitChar (c.toNat / 16), hexDigitChar (c.toNat % 16)]
  else [c]

def escJsonStr (s : Str) : Str := (s.map escJsonChar).flatten

mutual

/-- Models `serde_json::to_string` (compact rendering). -/
def renderJson : Json → Str
  | .null => strOf "null"
  | .bool true => strOf "true"
  | .bool false => strOf "false"
  | .num n => intRepr n
  | .str s => '"' :: (escJsonStr s ++ ['"'])
  | .arr items => '[' :: (renderArr items ++ [']'])
  | .obj fields => '{' :: (renderObj fields ++ ['}'])

def renderArr : List Json → Str
  | [] => []
  | [x] => renderJson x
  | x :: y :: rest => renderJson x ++ ',' :: renderArr (y :: rest)

def renderObj : List (Str × Json) → Str
  | [] => []
  | [(k, x)] => '"' :: (escJsonStr k ++ '"' :: ':' :: renderJson x)
  | (k, x) :: f :: rest =>
      ('"' :: (escJsonStr k ++ '"' :: ':' :: renderJson x)) ++ ',' :: renderObj (f :: rest)

end

def spaces (n : Nat) : Str := List.replicate n ' '

mutual

/-- Models `serde_json::to_string_pretty` (two-space indentation). -/
def renderPretty (ind : Nat) : Json → Str
  | .arr [] => strOf "[]"
  | .arr (x :: rest) =>
      strOf "[\n" ++ prettyArr (ind + 2) x rest ++ '\n' :: (spaces ind ++ [']'])
  | .obj [] => strOf "\x7b\x7d"
  | .obj (f :: rest) =>
      strOf "\x7b\n" ++ prettyObj (ind + 2) f rest ++ '\n' :: (spaces ind ++ ['}'])
  | v => renderJson v
termination_by j => sizeOf j

def prettyArr (ind : Nat) : Json → List Json → Str
  | x, [] => spaces ind ++ renderPretty ind x
  | x, y :: rest => spaces ind ++ renderPretty ind x ++ strOf ",\n" ++ prettyArr ind y rest
termination_by x rest => sizeOf x + sizeOf rest

def prettyObj (ind : Nat) : Str × Json → List (Str × Json) → Str
  | (k, x), [] => spaces ind ++ '"' :: (escJsonStr k ++ strOf "\": " ++ renderPretty ind x)
  | (k, x), f :: rest =>
      (spaces ind ++ '"' :: (escJsonStr k ++ strOf "\": " ++ renderPretty ind x)) ++
        strOf ",\n" ++ prettyObj ind f rest
termination_by f rest => sizeOf f + sizeOf rest

end

/-- Models `truncate_value`: compact JSON rendering capped by `ellipsize`. -/
def truncate_value (v : Json) (max : Nat) : Option Str :=
  ellipsize (renderJson v) max

/-- The parts one content-block array element contributes inside
`extract_content_text`; `none` models a panic inside `truncate_value`. -/
def itemParts (detailed : Bool) (item : Json) : Option (List Str) :=
  match item with
  | .obj _ =>
      let itemType := (getStrField item (strOf "type")).getD []
      if itemType = strOf "text" then
        some (match getStrField item (strOf "text") with
          | some txt => [txt]
          | none => [])
      else if itemType = strOf "thinking" ∧ detailed = true then
        some [strOf "[thinking]\n" ++ (getStrField item (strOf "thinking")).getD []]
      else if itemType = strOf "tool_use" ∧ detailed = true then
        some [strOf "[tool_use] " ++ ((getStrField item (strOf "name")).getD (strOf "unknown")) ++
          '\n' :: renderPretty 0 ((jget item (strOf "input")).getD (Json.obj []))]
      else if itemType = strOf "tool_result" ∧ detailed = true then
        (truncate_value ((jget item (strOf "content")).getD Json.null) 1200).map
          (fun t => [strOf "[tool_result] " ++
            ((getStrField item (strOf "tool_use_id")).getD (strOf "unknown")) ++ '\n' :: t])
      else if itemType = strOf "image" ∧ detailed = true then
        some [strOf "[image omitted]"]
      else if itemType = strOf "document" ∧ detailed = true then
        some [strOf "[document omitted]"]
      else some []
  | .str s => some [s]
  | _ => some []

/-- The parts collected by the `extract_content_text` loop over an array. -/
def contentParts (detailed : Bool) : List Json → Option (List Str)
  | [] => some []
  | item :: rest => do
      let ps ← itemParts detailed item
      let tail ← contentParts detailed rest
      pure (ps ++ tail)

/-- Models `extract_content_text`. -/
def extract_content_text (content : Json) (detailed : Bool) : Option Str :=
  match content with
  | .str s => some s
  | .arr items => (contentParts detailed items).map joinNl
  | v => truncate_value v 1200

/-- Models `extract_message_text`. -/
def extract_message_text (record : Json) (detailed : Bool) : Option Str :=
  match jget record (strOf "message") with
  | none => some []
  | some message =>
      match jget message (strOf "content") with
      | none => some []
      | some content => extract_content_text content detailed

/-- Models `summarize_non_dialog_record`. -/
def summarize_non_dialog_record (v : Json) : Option Str :=
  let rt := (getStrField v (strOf "type")).getD (strOf "unknown")
  if rt = strOf "progress" then
    let ptype := ((jget v (strOf "data")).bind (fun d => getStrField d (strOf "type"))).getD
      (strOf "unknown")
    let hook := ((jget v (strOf "data")).bind (fun d => getStrField d (strOf "hookName"))).getD []
    let cmd := ((jget v (strOf "data")).bind (fun d => getStrField d (strOf "command"))).getD []
    let s1 := strOf "progress:" ++ ptype
    let s2 := if hook.isEmpty then s1 else s1 ++ strOf " hook=" ++ hook
    if cmd.isEmpty then some s2
    else (ellipsize cmd 120).map (fun e => s2 ++ strOf " cmd=" ++ e)
  else if rt = strOf "system" then
    some (strOf "system:" ++ (getStrField v (strOf "subtype")).getD (strOf "unknown"))
  else if rt = strOf "queue-operation" then
    some (strOf "queue-operation:" ++ (getStrField v (strOf "operation")).getD (strOf "unknown"))
  else if rt = strOf "file-history-snapshot" then
    some (strOf "file-history-snapshot")
  else truncate_value v 300

/-- Models the `NormalizedEvent` struct. -/
structure NormalizedEvent where
  role : Str
  source_type : Str
  timestamp : Option Str
  content : Str
deriving DecidableEq

/-- Models the `ParseOutput` struct. -/
structure ParseOutput where
  events : List NormalizedEvent
  parse_errors : Nat
deriving DecidableEq

/-- One iteration of the `parse_session_events` loop for a successfully parsed
record: the event that record pushes, if any; outer `none` models a panic. -/
def recordEvent (v : Json) (detailed : Bool) : Option (Option NormalizedEvent) :=
  let record_type := (getStrField v (strOf "type")).getD (strOf "unknown")
  let timestamp := getStrField v (strOf "timestamp")
  if record_type = strOf "user" ∨ record_type = strOf "assistant" then
    (extract_message_text v detailed).map (fun text =>
      if trimEmpty text then none
      else some { role := record_type, source_type := record_type, timestamp, content := text })
  else if record_type = strOf "system" ∨ record_type = strOf "progress" ∨
      record_type = strOf "queue-operation" ∨ record_type = strOf "file-history-snapshot" then
    if detailed then
      (summarize_non_dialog_record v).map (fun short =>
        some { role := record_type, source_type := record_type, timestamp, content := short })
    else some none
  else
    if detailed then
      (truncate_value v 500).map (fun c =>
        some { role := record_type, source_type := record_type, timestamp, content := c })
    else some none

/-- Models `parse_session_events`.  The file at the given path is supplied as
its list of lines; `parse` models `serde_json::from_str`; the result is `none`
when a line's processing panics. -/
def parse_session_events (parse : Str → Option Json) (detailed : Bool) :
    List Str → Option ParseOutput
  | [] => some { events := [], parse_errors := 0 }
  | line :: rest => do
      let out ← parse_session_events parse detailed rest
      if trimEmpty line then pure out
      else
        match parse line with
        | none => pure { out with parse_errors := out.parse_errors + 1 }
        | some v => do
            let ev ← recordEvent v detailed
            match ev with
            | none => pure out
            | some e => pure { out with events := e :: out.events }

/-- Models the `SearchMode` enum. -/
inductive SearchMode where
  | smart
  | exact
  | regex
deriving DecidableEq

/-- Models the `SpeakerFilter` enum. -/
inductive SpeakerFilter where
  | user
  | assistant
  | both
deriving DecidableEq

/-- Models the `SearchArgs` struct. -/
structure SearchArgs where
  query : Str
  mode : SearchMode
  speaker : SpeakerFilter
  case_sensitive : Bool
  max_results : Nat
  context_chars : Nat

/-- Models the `Session` struct restricted to the fields the modelled
operations read; `lines` stands for the contents of the file at `path`. -/
structure Session where
  id : Str
  id_short : Str
  project : Str
  path : Str
  lines : List Str
deriving DecidableEq

/-- Models the `SearchHit` struct. -/
structure SearchHit where
  session_id : Str
  project : Str
  path : Str
  speaker : Str
  timestamp : Option Str
  relevance : ℚ
  preview : Str
deriving DecidableEq

/-- Models `build_context_preview`; `none` models a panic inside the fallback
`ellipsize` call. -/
def build_context_preview (text query : Str) (context_chars : Nat)
    (case_sensitive : Bool) : Option Str :=
  let hay := if case_sensitive then text else lowerStr text
  let needle := if case_sensitive then query else lowerStr query
  match byteFind hay needle with
  | some pos =>
      let start := pos - context_chars
      let stop := min (pos + utf8Len needle + context_chars) (utf8Len text)
      let slice := (byteSlice text start stop).getD text
      some (replaceNl ((if 0 < start then strOf "..." else []) ++ slice ++
        (if stop < utf8Len text then strOf "..." else [])))
  | none => ellipsize (replaceNl text) (context_chars * 2)

/-- The speaker filter at the top of the per-event search loop. -/
def speakerPass (args : SearchArgs) (e : NormalizedEvent) : Bool :=
  match args.speaker with
  | .both => true
  | .user => decide (e.role = strOf "user")
  | .assistant => decide (e.role = strOf "assistant")

/-- The hit a search produces for one event. -/
def mkHit (s : Session) (e : NormalizedEvent) (relevance : ℚ) (preview : Str) : SearchHit :=
  { session_id := s.id, project := s.project, path := s.path, speaker := e.role,
    timestamp := e.timestamp, relevance := relevance, preview := preview }

/-- Per-event body of the `search_sessions` loop: speaker filter, per-mode
match decision and score, preview construction.  The outer `none` models a
panic (including the `expect` on a missing compiled regex); `some none` is an
event that produces no hit. -/
def searchEventHit (args : SearchArgs) (rx : Option (Str → Bool)) (qn : Str)
    (qtoks : List Str) (s : Session) (e : NormalizedEvent) : Option (Option SearchHit) :=
  if speakerPass args e = false then some none else
  let haystack := if args.case_sensitive then e.content else lowerStr e.content
  let scored : Option (Bool × ℚ) :=
    match args.mode, rx with
    | .exact, _ =>
        if strContains haystack qn then
          some (true, min (0.5 + (countMatches haystack qn : ℚ) * 0.1) 1)
        else some (false, 0)
    | .regex, some f => if f e.content then some (true, 0.8) else some (false, 0)
    | .regex, none => none
    | .smart, _ =>
        let base : ℚ := if strContains haystack qn then 0.6 else 0
        let score : ℚ := base +
          (if qtoks.isEmpty then 0
           else ((qtoks.filter (fun t => strContains haystack t)).length : ℚ) /
             (qtoks.length : ℚ) * 0.4)
        some (decide (0.15 < score), min score 1)
  match scored with
  | none => none
  | some (matched, relevance) =>
      if matched then
        (build_context_preview e.content args.query args.context_chars
          args.case_sensitive).map (fun pv => some (mkHit s e relevance pv))
      else some none

/-- Folds `searchEventHit` over one session's events, keeping the produced
hits in order. -/
def eventsHits (f : NormalizedEvent → Option (Option SearchHit)) :
    List NormalizedEvent → Option (List SearchHit)
  | [] => some []
  | e :: rest =>
      match f e with
      | none => none
      | some none => eventsHits f rest
      | some (some h) => (eventsHits f rest).map (h :: ·)

/-- The hits one session contributes: its file is normalized at the terse
detail level and every event is run through `searchEventHit`. -/
def sessionHitsOf (parse : Str → Option Json) (args : SearchArgs)
    (rx : Option (Str → Bool)) (qn : Str) (qtoks : List Str) (s : Session) :
    Option (List SearchHit) :=
  (parse_session_events parse false s.lines).bind
    (fun po => eventsHits (searchEventHit args rx qn qtoks s) po.events)

/-- Concatenates the per-session hit lists over the session list. -/
def sessionsHits (g : Session → Option (List SearchHit)) :
    List Session → Option (List SearchHit)
  | [] => some []
  | s :: rest =>
      match g s with
      | none => none
      | some l => (sessionsHits g rest).map (l ++ ·)

/-- Lexicographic strict order on strings (Rust `str::cmp`). -/
def strLtB : Str → Str → Bool
  | [], [] => false
  | [], _ :: _ => true
  | _ :: _, [] => false
  | a :: as, b :: bs => if a < b then true else if b < a then false else strLtB as bs

/-- The sort comparator of `search_sessions`: descending relevance, ties
broken by ascending session id. -/
def hitBefore (a b : SearchHit) : Bool :=
  decide (b.relevance < a.relevance) ||
    (decide (a.relevance = b.relevance) && !strLtB b.session_id a.session_id)

def insertHit (h : SearchHit) : List SearchHit → List SearchHit
  | [] => [h]
  | x :: t => if hitBefore h x then h :: x :: t else x :: insertHit h t

/-- The final `sort_by` of `search_sessions` (membership-preserving sort by
`hitBefore`). -/
def sortHits : List SearchHit → List SearchHit
  | [] => []
  | h :: t => insertHit h (sortHits t)

/-- The `query_normalized` computed at the top of `search_sessions`. -/
def queryFoldOf (args : SearchArgs) : Str :=
  if args.case_sensitive then args.query else lowerStr args.query

/-- The `query_tokens` computed at the top of `search_sessions`. -/
def queryTokensOf (args : SearchArgs) : List Str :=
  (splitWs (queryFoldOf args)).filter (fun t => !t.isEmpty)

/-- The regex-compilation step at the top of `search_sessions` (performed
before any session is scanned, only in regex mode). -/
def compileRx (rcompile : Str → Bool → Option (Str → Bool)) (args : SearchArgs) :
    Except Str (Option (Str → Bool)) :=
  match args.mode with
  | .regex =>
      match rcompile args.query (!args.case_sensitive) with
      | some f => .ok (some f)
      | none => .error (strOf "Invalid regex: " ++ args.query)
  | _ => .ok none

/-- Models `search_sessions`.  `parse` models `serde_json::from_str`;
`rcompile` models `RegexBuilder::build`, returning the compiled regex as a
match predicate or `none` on a compilation error.  The result is
`some (Except.error msg)` for the regex compilation failure, `none` when any
later step panics, and `some (Except.ok hits)` otherwise. -/
def search_sessions (parse : Str → Option Json)
    (rcompile : Str → Bool → Option (Str → Bool)) (sessions : List Session)
    (args : SearchArgs) : Option (Except Str (List SearchHit)) :=
  match compileRx rcompile args with
  | .error e => some (.error e)
  | .ok rx =>
      (sessionsHits (sessionHitsOf parse args rx (queryFoldOf args) (queryTokensOf args))
        sessions).map (fun hits => .ok (sortHits hits))

/-- The smart-mode score exactly as the specification words it: tokenize the
query on whitespace into case-folded tokens; the score is 0.6 when the whole
case-folded query occurs as a substring of the case-folded event text, plus
0.4 times the fraction of query tokens individually found as substrings. -/
def smartScoreSpec (case_sensitive : Bool) (query text : Str) : ℚ :=
  let fold := fun s => if case_sensitive then s else lowerStr s
  let toks := splitWs (fold query)
  (if strContains (fold text) (fold query) then 0.6 else 0) +
    ((toks.filter (fun t => strContains (fold text) t)).length : ℚ) /
      (toks.length : ℚ) * 0.4

/-- Models the `ExportDocument` struct (`source_path` as its display string). -/
structure ExportDocument where
  session_id : Str
  session_short : Str
  project : Str
  source_path : Str
  modified_iso : Str
  event_count : Nat
  events : List NormalizedEvent

/-- Models `html_escape`: the five chained single-character `replace` calls. -/
def replaceChar (target : Char) (rep : Str) (s : Str) : Str :=
  (s.map (fun c => if c = target then rep else [c])).flatten

def html_escape (s : Str) : Str :=
  replaceChar (Char.ofNat 39) (strOf "&#39;")
    (replaceChar '"' (strOf "&quot;")
      (replaceChar '>' (strOf "&gt;")
        (replaceChar '<' (strOf "&lt;")
          (replaceChar '&' (strOf "&amp;") s))))

/-- Per-character specification of HTML escaping: each of the five special
characters is replaced by its entity, every other character is kept. -/
def escHtmlChar (c : Char) : Str :=
  if c = '&' then strOf "&amp;"
  else if c = '<' then strOf "&lt;"
  else if c = '>' then strOf "&gt;"
  else if c = '"' then strOf "&quot;"
  else if c = Char.ofNat 39 then strOf "&#39;"
  else [c]

/-- The static header of `render_html` (doctype, title and inline style). -/
def htmlHeader : Str :=
  strOf "<!doctype html><html><head><meta charset=\"utf-8\"><title>cc-convo export</title>" ++
  strOf "<style>body\x7bfont-family:ui-sans-serif,system-ui;margin:2rem;background:#f7f8fa;color:#1e2430\x7d .card\x7bbackground:#fff;border-radius:12px;padding:16px 20px;margin:0 0 16px 0;box-shadow:0 1px 2px rgba(0,0,0,.06)\x7d .meta\x7bcolor:#5c667a;font-size:.92rem\x7d pre\x7bwhite-space:pre-wrap;word-break:break-word;margin:0\x7d h1,h2\x7bmargin:.2rem 0 .8rem\x7d </style>" ++
  strOf "</head><body><h1>cc-convo export</h1>"

/-- The session header card pushed for one document. -/
def sessionCard (d : ExportDocument) : Str :=
  strOf "<div class=\"card\">" ++
  (strOf "<h2>" ++ html_escape d.session_id ++ strOf "</h2><div class=\"meta\">project=" ++
    html_escape d.project ++ strOf " modified=" ++ html_escape d.modified_iso ++
    strOf " source=" ++ html_escape d.source_path ++ strOf " events=" ++
    natRepr d.event_count ++ strOf "</div>") ++
  strOf "</div>"

/-- The card pushed for one event. -/
def eventCard (e : NormalizedEvent) : Str :=
  strOf "<div class=\"card\">" ++
  (strOf "<h2>[" ++ html_escape e.role ++ strOf "] " ++
    html_escape (e.timestamp.getD (strOf "-")) ++ strOf "</h2><pre>" ++
    html_escape e.content ++ strOf "</pre>") ++
  strOf "</div>"

def renderEvents : List NormalizedEvent → Str
  | [] => []
  | e :: rest => eventCard e ++ renderEvents rest

def renderDoc (d : ExportDocument) : Str := sessionCard d ++ renderEvents d.events

def renderDocs : List ExportDocument → Str
  | [] => []
  | d :: rest => renderDoc d ++ renderDocs rest

/-- Models `render_html`. -/
def render_html (docs : List ExportDocument) : Str :=
  htmlHeader ++ renderDocs docs ++ strOf "</body></html>"

/-! Concrete inputs used by the witness theorems: one session file holding a
user record whose content is the plain string "alpha gamma", one assistant
record, and one malformed line. -/

def lineUser : Str :=
  strOf "\x7b\"type\":\"user\",\"timestamp\":\"T0\",\"message\":\x7b\"content\":\"alpha gamma\"\x7d\x7d"

def jUser : Json :=
  Json.obj [(strOf "type", Json.str (strOf "user")),
    (strOf "timestamp", Json.str (strOf "T0")),
    (strOf "message", Json.obj [(strOf "content", Json.str (strOf "alpha gamma"))])]

def lineAsst : Str :=
  strOf "\x7b\"type\":\"assistant\",\"message\":\x7b\"content\":[\x7b\"type\":\"text\",\"text\":\"hello there\"\x7d]\x7d\x7d"

def jAsst : Json :=
  Json.obj [(strOf "type", Json.str (strOf "assistant")),
    (strOf "message", Json.obj [(strOf "content",
      Json.arr [Json.obj [(strOf "type", Json.str (strOf "text")),
        (strOf "text", Json.str (strOf "hello there"))]])])]

def lineBad : Str := strOf "not json"

/-- Witness model of `serde_json::from_str`, defined on the lines above. -/
def parseW : Str → Option Json := fun l =>
  if l = lineUser then some jUser else if l = lineAsst then some jAsst else none

def sessW : Session :=
  { id := strOf "s1", id_short := strOf "s1", project := strOf "proj",
    path := strOf "/tmp/s1.jsonl", lines := [lineUser, lineAsst, lineBad] }

/-- Witness model of `RegexBuilder::build`: the pattern "al" compiles to a
literal substring matcher, every other pattern fails to compile. -/
def rcompileW : Str → Bool → Option (Str → Bool) := fun q _ =>
  if q = strOf "al" then some (fun t => strContains t (strOf "al")) else none

def mkArgsW (q : Str) (m : SearchMode) : SearchArgs :=
  { query := q, mode := m, speaker := .both, case_sensitive := false,
    max_results := 30, context_chars := 5 }

/-- The event the witness user record normalizes to. -/
def evUserW : NormalizedEvent :=
  { role := strOf "user", source_type := strOf "user",
    timestamp := some (strOf "T0"), content := strOf "alpha gamma" }

/-- The event the witness assistant record normalizes to. -/
def evAsstW : NormalizedEvent :=
  { role := strOf "assistant", source_type := strOf "assistant",
    timestamp := none, content := strOf "hello there" }

/-- A concrete export document over the witness events, used to exercise the
HTML rendering theorems. -/
def docW : ExportDocument :=
  { session_id := strOf "s1", session_short := strOf "s1", project := strOf "proj",
    source_path := strOf "/tmp/s1.jsonl", modified_iso := strOf "2024-01-01T00:00:00Z",
    event_count := 2, events := [evUserW, evAsstW] }

/-- All characters are ASCII (so every byte index is a character boundary). -/
def isAsciiStr (s : Str) : Bool := s.all (fun c => c.toNat < 128)

/-- `occursFrom t ps i`: the parts `ps` occur, in order and without overlap,
as substrings of `t` starting at or after character position `i`. -/
def occursFrom (t : Str) : List Str → Nat → Prop
  | [], _ => True
  | p :: ps, i => ∃ j, i ≤ j ∧ p.isPrefixOf (t.drop j) = true ∧ occursFrom t ps (j + p.length)

/-- The non-detail content `a` is content-preserved inside the detail content
`b`: `a` is a newline join of parts that all occur, in order, within `b`. -/
def contentEmbeds (a b : Str) : Prop :=
  ∃ ps, a = joinNl ps ∧ occursFrom b ps 0

/-- A non-detail event corresponds to a detail-mode event: same role, source
type and timestamp, and content preserved inside the detail content. -/
def eventRefines (e e' : NormalizedEvent) : Prop :=
  e.role = e'.role ∧ e.source_type = e'.source_type ∧
    e.timestamp = e'.timestamp ∧ contentEmbeds e.content e'.content

/-- Restriction of an event list to the dialog roles `user`/`assistant`. -/
def dialogOnly (evs : List NormalizedEvent) : List NormalizedEvent :=
  evs.filter (fun e => decide (e.role = strOf "user") || decide (e.role = strOf "assistant"))

/-- The number of non-blank lines that fail JSON parsing. -/
def countBadLines (parse : Str → Option Json) (lines : List Str) : Nat :=
  (lines.filter (fun l => !trimEmpty l && (parse l).isNone)).length

/-- A string is script-safe: it does not contain the character sequence
`<sc` and does not end in a prefix of it, so no concatenation of script-safe
strings can ever spell `<script>`. -/
def ScriptSafe (s : Str) : Prop :=
  strContains s (strOf "<sc") = false ∧
    (strOf "<").isSuffixOf s = false ∧ (strOf "<s").isSuffixOf s = false

instance : DecidableEq (Except Str (List SearchHit)) := fun a b =>
  match a, b with
  | .error x, .error y =>
      if h : x = y then .isTrue (congrArg Except.error h)
      else .isFalse (fun hh => h (Except.error.inj hh))
  | .ok x, .ok y =>
      if h : x = y then .isTrue (congrArg Except.ok h)
      else .isFalse (fun hh => h (Except.ok.inj hh))
  | .error _, .ok _ => .isFalse (fun hh => Except.noConfusion hh)
  | .ok _, .error _ => .isFalse (fun hh => Except.noConfusion hh)

/-! ### Generic lemmas about the string model -/

theorem strContains_iff (hay needle : Str) :
    strContains hay needle = true ↔ needle <:+: hay := by
  induction hay with
  | nil =>
      simp [strContains, List.isEmpty_iff, List.infix_nil]
  | cons c t ih =>
      simp [strContains, List.isPrefixOf_iff_prefix, ih, List.infix_cons_iff,
        Bool.or_eq_true, List.IsPrefix.isInfix]

theorem strContains_trans (a b c : Str) (hab : strContains a b = true)
    (hcb : c <:+: b) : strContains a c = true := by
  rw [strContains_iff] at *
  exact hcb.trans hab

theorem charOfNat_toNat (n : Nat) (h : n < 0xD800) : (Char.ofNat n).toNat = n := by
  have hv : n.isValidChar := Or.inl h
  simp only [Char.ofNat, hv, dif_pos, Char.ofNatAux, Char.toNat]
  rfl

theorem utf8Size_pos (c : Char) : 1 ≤ utf8Size c := by
  unfold utf8Size
  split <;> try omega
  split <;> try omega
  split <;> omega

theorem utf8Size_ascii (c : Char) (h : c.toNat < 128) : utf8Size c = 1 := by
  unfold utf8Size
  rw [if_pos h]

theorem utf8Len_nil : utf8Len [] = 0 := rfl

theorem utf8Len_cons (c : Char) (t : Str) :
    utf8Len (c :: t) = utf8Size c + utf8Len t := by
  simp [utf8Len]

theorem utf8Len_append (a b : Str) : utf8Len (a ++ b) = utf8Len a + utf8Len b := by
  simp [utf8Len]

theorem length_le_utf8Len (s : Str) : s.length ≤ utf8Len s := by
  induction s with
  | nil => simp [utf8Len]
  | cons c t ih =>
      have := utf8Size_pos c
      rw [utf8Len_cons]
      simp only [List.length_cons]
      omega

theorem utf8Len_ascii (s : Str) (h : isAsciiStr s = true) : utf8Len s = s.length := by
  induction s with
  | nil => rfl
  | cons c t ih =>
      simp only [isAsciiStr, List.all_cons, Bool.and_eq_true, decide_eq_true_eq] at h
      rw [utf8Len_cons, utf8Size_ascii c h.1, ih (by simpa [isAsciiStr] using h.2)]
      simp only [List.length_cons]
      omega

theorem isAscii_cons (c : Char) (t : Str) (h : isAsciiStr (c :: t) = true) :
    c.toNat < 128 ∧ isAsciiStr t = true := by
  simpa [isAsciiStr, List.all_cons, Bool.and_eq_true, decide_eq_true_eq] using h

theorem lowerChar_ascii (c : Char) (h : c.toNat < 128) : (lowerChar c).toNat < 128 := by
  unfold lowerChar
  split
  · next hc =>
      simp only [Bool.and_eq_true, decide_eq_true_eq] at hc
      rw [charOfNat_toNat _ (by omega)]
      omega
  · exact h

theorem isAscii_lowerStr (s : Str) (h : isAsciiStr s = true) :
    isAsciiStr (lowerStr s) = true := by
  induction s with
  | nil => rfl
  | cons c t ih =>
      obtain ⟨hc, ht⟩ := isAscii_cons c t h
      simp only [lowerStr, List.map_cons]
      simp only [isAsciiStr, List.all_cons, Bool.and_eq_true, decide_eq_true_eq]
      exact ⟨lowerChar_ascii c hc, by simpa [isAsciiStr, lowerStr] using ih ht⟩

theorem lowerStr_length (s : Str) : (lowerStr s).length = s.length := by
  simp [lowerStr]

theorem replaceNl_length (s : Str) : (replaceNl s).length = s.length := by
  simp [replaceNl]

theorem isAscii_replaceNl (s : Str) (h : isAsciiStr s = true) :
    isAsciiStr (replaceNl s) = true := by
  induction s with
  | nil => rfl
  | cons c t ih =>
      obtain ⟨hc, ht⟩ := isAscii_cons c t h
      simp only [replaceNl, List.map_cons]
      simp only [isAsciiStr, List.all_cons, Bool.and_eq_true, decide_eq_true_eq]
      refine ⟨?_, by simpa [isAsciiStr, replaceNl] using ih ht⟩
      split <;> simp_all

theorem byteTake_utf8Len (s : Str) (n : Nat) (r : Str)
    (h : byteTake s n = some r) : utf8Len r = n := by
  induction s generalizing n r with
  | nil =>
      cases n with
      | zero => simp [byteTake] at h; subst h; rfl
      | succ m => simp [byteTake] at h
  | cons c t ih =>
      cases n with
      | zero => simp [byteTake] at h; subst h; rfl
      | succ m =>
          simp only [byteTake] at h
          split at h
          · next hsz =>
              obtain ⟨r', hr', hrr⟩ := Option.map_eq_some'.mp h
              have := ih _ _ hr'
              rw [← hrr, utf8Len_cons, this]
              omega
          · exact absurd h (by simp)

theorem byteTake_ascii (s : Str) (h : isAsciiStr s = true) (n : Nat)
    (hn : n ≤ s.length) : byteTake s n = some (s.take n) := by
  induction s generalizing n with
  | nil =>
      cases n with
      | zero => rfl
      | succ m => simp at hn
  | cons c t ih =>
      obtain ⟨hc, ht⟩ := isAscii_cons c t h
      cases n with
      | zero => rfl
      | succ m =>
          simp only [byteTake, utf8Size_ascii c hc]
          rw [if_pos (by omega)]
          have : m + 1 - 1 = m := by omega
          rw [this, ih ht m (by simpa using hn)]
          rfl

theorem byteDrop_ascii (s : Str) (h : isAsciiStr s = true) (n : Nat)
    (hn : n ≤ s.length) : byteDrop s n = some (s.drop n) := by
  induction s generalizing n with
  | nil =>
      cases n with
      | zero => rfl
      | succ m => simp at hn
  | cons c t ih =>
      obtain ⟨hc, ht⟩ := isAscii_cons c t h
      cases n with
      | zero => rfl
      | succ m =>
          simp only [byteDrop, utf8Size_ascii c hc]
          rw [if_pos (by omega)]
          have : m + 1 - 1 = m := by omega
          rw [this, ih ht m (by simpa using hn)]
          rfl

theorem byteFind_le (hay needle : Str) (pos : Nat)
    (h : byteFind hay needle = some pos) : pos ≤ utf8Len hay := by
  induction hay generalizing pos with
  | nil =>
      simp only [byteFind] at h
      split at h
      · simp at h; omega
      · simp at h
  | cons c t ih =>
      simp only [byteFind] at h
      split at h
      · simp at h; omega
      · obtain ⟨p', hp', hpp⟩ := Option.map_eq_some'.mp h
        have := ih _ hp'
        rw [utf8Len_cons, ← hpp]
        omega

/-! ### C10 -/

/-- C10: the claim states that for every UTF-8 string and every `max ≥ 3`
`ellipsize` returns normally, its slice falling on a character boundary.  In
the code the slice `&s[..max - 3]` is a byte index: on the three-character
string "ééé" (six bytes) with `max = 4` the boundary 1 falls inside the first
two-byte character and the slice panics (modelled as `none`), while the same
call on ASCII input of the same byte length returns normally.  The claim is
the intended contract of the helper and the code's byte slicing is the bug. -/
theorem c10_ellipsize_multibyte_panic :
    ellipsize (strOf "ééé") 4 = none ∧
      ellipsize (strOf "eeeeee") 4 = some (strOf "e...") := by
  constructor
  · decide
  · decide

/-! ### C2 -/

section RatKernelEval

attribute [local semireducible] Rat.add Rat.mul Rat.sub Rat.inv Rat.ofScientific

/-- C2 counterexample: running the full smart-mode case-insensitive search for
"alpha beta" over a session whose only surviving event has content
"alpha gamma" — which contains "alpha" but neither "beta" nor the phrase —
produces a hit with relevance 1/5 = 0.2, not the 0.6 + 0.4 × 0.5 = 0.8 the
claim states: the 0.6 term is added only when the whole query occurs. -/
theorem c2_smart_score_counterexample :
    strContains (lowerStr evUserW.content) (strOf "alpha") = true ∧
    strContains (lowerStr evUserW.content) (strOf "beta") = false ∧
    strContains (lowerStr evUserW.content) (strOf "alpha beta") = false ∧
    search_sessions parseW rcompileW [sessW] (mkArgsW (strOf "alpha beta") .smart) =
      some (.ok [mkHit sessW evUserW (1/5 : ℚ) (strOf "alpha g...")]) ∧
    ¬ ((1/5 : ℚ) = 0.6 + 0.4 * (1/2)) := by
  refine ⟨by decide, by decide, by decide, by decide, by norm_num⟩

end RatKernelEval

/-- C2 (amended): a smart-mode case-insensitive search with query
"alpha beta" against an event whose text contains "alpha" but not "beta"
(hence not the whole phrase either) produces the relevance score
0.4 × 0.5 = 0.2 — the 0.6 phrase bonus is not added — and the event is still
included as a hit, since 0.2 is above the 0.15 threshold. -/
theorem c2_smart_score_amended (args : SearchArgs) (s : Session)
    (e : NormalizedEvent) (pv : Str)
    (hq : args.query = strOf "alpha beta") (hmode : args.mode = .smart)
    (hcs : args.case_sensitive = false) (hspk : speakerPass args e = true)
    (ha : strContains (lowerStr e.content) (strOf "alpha") = true)
    (hb : strContains (lowerStr e.content) (strOf "beta") = false)
    (hpv : build_context_preview e.content args.query args.context_chars false = some pv) :
    searchEventHit args none (lowerStr args.query)
        ((splitWs (lowerStr args.query)).filter (fun t => !t.isEmpty)) s e =
      some (some (mkHit s e (0.2 : ℚ) pv)) := by
  have hphrase : strContains (lowerStr e.content) (strOf "alpha beta") = false := by
    by_contra hcon
    rw [Bool.not_eq_false] at hcon
    have : strContains (lowerStr e.content) (strOf "beta") = true :=
      strContains_trans _ _ _ hcon (by decide)
    rw [this] at hb
    exact absurd hb (by simp)
  have htoks : (splitWs (lowerStr args.query)).filter (fun t => !t.isEmpty) =
      [strOf "alpha", strOf "beta"] := by
    rw [hq]; decide
  have hql : lowerStr args.query = strOf "alpha beta" := by rw [hq]; decide
  rw [hq] at hpv
  have hfold : lowerStr (strOf "alpha beta") = strOf "alpha beta" := by decide
  have htoks2 : (splitWs (strOf "alpha beta")).filter (fun t => !t.isEmpty) =
      [strOf "alpha", strOf "beta"] := by decide
  unfold searchEventHit
  rw [hq, hfold, htoks2, hspk, hmode, hcs]
  simp only [Bool.true_eq_false, if_false, Bool.false_eq_true,
    List.filter_cons, List.filter_nil, ha, hb, hphrase, if_true, if_false,
    List.isEmpty_cons, List.length_cons, List.length_nil, Bool.false_eq_true]
  norm_num [hpv, mkHit, min_def]

/-- C2 amended witness: the concrete event with content "alpha gamma". -/
theorem c2_smart_score_amended_witness :
    searchEventHit (mkArgsW (strOf "alpha beta") .smart) none
        (lowerStr (strOf "alpha beta"))
        ((splitWs (lowerStr (strOf "alpha beta"))).filter (fun t => !t.isEmpty))
        sessW evUserW =
      some (some (mkHit sessW evUserW (0.2 : ℚ) (strOf "alpha g..."))) :=
  c2_smart_score_amended (mkArgsW (strOf "alpha beta") .smart) sessW evUserW
    (strOf "alpha g...") rfl rfl rfl (by decide) (by decide) (by decide) (by decide)

/-! ### C8 -/

theorem isAscii_of_subset (s t : Str) (h : t ⊆ s) (hs : isAsciiStr s = true) :
    isAsciiStr t = true := by
  simp only [isAsciiStr, List.all_eq_true] at *
  exact fun c hc => hs c (h hc)

theorem ellipsize_ascii (s : Str) (h : isAsciiStr s = true) (max : Nat) :
    ∃ r, ellipsize s max = some r ∧ r.length ≤ max + 3 := by
  unfold ellipsize
  have hlen : utf8Len s = s.length := utf8Len_ascii s h
  by_cases hle : utf8Len s ≤ max
  · rw [if_pos hle]
    exact ⟨s, rfl, by omega⟩
  · rw [if_neg hle]
    rw [byteTake_ascii s h (max - 3) (by omega)]
    refine ⟨_, rfl, ?_⟩
    have h3 : (strOf "...").length = 3 := rfl
    simp only [List.length_append, List.length_take, h3]
    have hm3 := Nat.min_le_left (max - 3) s.length
    omega

/-- C8 counterexample: a ten-character query with `context_chars = 1` against
a twenty-character text produces a fourteen-character preview, exceeding the
claimed bound 2 × context_chars + 6 = 8: the preview window also spans the
matched query occurrence itself, which the claimed bound does not account
for. -/
theorem c8_preview_bound_counterexample :
    build_context_preview (strOf "aaaaaaaaaaaaaaaaaaaa") (strOf "aaaaaaaaaa") 1 false =
      some (strOf "aaaaaaaaaaa...") ∧
    (strOf "aaaaaaaaaaa...").length = 14 ∧ ¬ (14 ≤ 2 * 1 + 6) := by
  refine ⟨by decide, by decide, by omega⟩

/-- C8 (amended): for ASCII event text and ASCII query — on which every byte
index is a character boundary, so the in-code slicing cannot fall back to the
whole text or panic — the context preview is produced and its length is
bounded by 2 × context_chars + (query length) + 6: a window of context_chars
on either side of the matched occurrence of the query, plus two 3-character
ellipsis markers.  (On non-ASCII text a window boundary can split a
character, in which case the code falls back to emitting the entire text.) -/
theorem c8_preview_bound (text query : Str) (context_chars : Nat) (cs : Bool)
    (htext : isAsciiStr text = true) (hquery : isAsciiStr query = true) :
    ∃ p, build_context_preview text query context_chars cs = some p ∧
      p.length ≤ 2 * context_chars + query.length + 6 := by
  have htlen : utf8Len text = text.length := utf8Len_ascii text htext
  have hlowt : isAsciiStr (lowerStr text) = true := isAscii_lowerStr text htext
  have hlowq : isAsciiStr (lowerStr query) = true := isAscii_lowerStr query hquery
  unfold build_context_preview
  have main : ∀ hay needle : Str, isAsciiStr hay = true → hay.length = text.length →
      utf8Len needle = query.length →
      ∃ p, (match byteFind hay needle with
        | some pos =>
            some (replaceNl ((if 0 < pos - context_chars then strOf "..." else []) ++
              ((byteSlice text (pos - context_chars)
                  (min (pos + utf8Len needle + context_chars) (utf8Len text))).getD text) ++
              (if min (pos + utf8Len needle + context_chars) (utf8Len text) < utf8Len text
               then strOf "..." else [])))
        | none => ellipsize (replaceNl text) (context_chars * 2)) = some p ∧
        p.length ≤ 2 * context_chars + query.length + 6 := by
    intro hay needle hhay hhlen hnlen
    cases hfind : byteFind hay needle with
    | none =>
        obtain ⟨r, hr, hrle⟩ := ellipsize_ascii (replaceNl text)
          (isAscii_replaceNl text htext) (context_chars * 2)
        exact ⟨r, by simpa using hr, by omega⟩
    | some pos =>
        have hpos : pos ≤ utf8Len hay := byteFind_le hay needle pos hfind
        have hhay2 : utf8Len hay = hay.length := utf8Len_ascii hay hhay
        have hpost : pos ≤ text.length := by omega
        have hstop1 : min (pos + utf8Len needle + context_chars) (utf8Len text) ≤
            pos + utf8Len needle + context_chars :=
          min_le_left _ _
        have hstop2 : min (pos + utf8Len needle + context_chars) (utf8Len text) ≤
            text.length := by
          have := min_le_right (pos + utf8Len needle + context_chars) (utf8Len text)
          omega
        have hstartstop : pos - context_chars ≤
            min (pos + utf8Len needle + context_chars) (utf8Len text) :=
          le_min (by omega) (by omega)
        have hslice : byteSlice text (pos - context_chars)
            (min (pos + utf8Len needle + context_chars) (utf8Len text)) =
            some ((text.drop (pos - context_chars)).take
              (min (pos + utf8Len needle + context_chars) (utf8Len text) -
                (pos - context_chars))) := by
          unfold byteSlice
          rw [if_neg (by omega)]
          rw [byteDrop_ascii text htext _ (by omega)]
          simp only [Option.some_bind]
          rw [byteTake_ascii _ (isAscii_of_subset text _ (List.drop_subset _ _) htext) _
            (by simp only [List.length_drop]; omega)]
        simp only [hslice, Option.getD_some]
        refine ⟨_, rfl, ?_⟩
        rw [replaceNl_length]
        have h3 : (strOf "...").length = 3 := rfl
        have hmt := Nat.min_le_left
          (min (pos + utf8Len needle + context_chars) (utf8Len text) -
            (pos - context_chars))
          (text.length - (pos - context_chars))
        split_ifs <;>
          simp only [List.length_append, List.length_take, List.length_drop, h3,
            List.length_nil] <;>
          omega
  cases cs with
  | false =>
      have h1 : utf8Len (lowerStr query) = query.length := by
        rw [utf8Len_ascii _ hlowq, lowerStr_length]
      simpa using main (lowerStr text) (lowerStr query) hlowt (lowerStr_length text) h1
  | true =>
      simpa using main text query htext rfl (utf8Len_ascii query hquery)

/-- C8 amended witness at a concrete ASCII input. -/
theorem c8_preview_bound_witness :
    isAsciiStr (strOf "hello world") = true ∧ isAsciiStr (strOf "world") = true ∧
    ∃ p, build_context_preview (strOf "hello world") (strOf "world") 3 false = some p ∧
      p.length ≤ 2 * 3 + (strOf "world").length + 6 :=
  ⟨by decide, by decide,
    c8_preview_bound (strOf "hello world") (strOf "world") 3 false (by decide) (by decide)⟩

/-! ### Membership in the search pipeline -/

theorem mem_insertHit (h x : SearchHit) (l : List SearchHit) :
    x ∈ insertHit h l ↔ x = h ∨ x ∈ l := by
  induction l with
  | nil => simp [insertHit]
  | cons a t ih =>
      unfold insertHit
      split
      · simp [List.mem_cons]
      · simp [List.mem_cons, ih]
        tauto

theorem mem_sortHits (x : SearchHit) (l : List SearchHit) : x ∈ sortHits l ↔ x ∈ l := by
  induction l with
  | nil => simp [sortHits]
  | cons a t ih => simp [sortHits, mem_insertHit, ih, List.mem_cons]

theorem mem_eventsHits (f : NormalizedEvent → Option (Option SearchHit))
    (evs : List NormalizedEvent) (l : List SearchHit)
    (hl : eventsHits f evs = some l) (x : SearchHit) :
    x ∈ l ↔ ∃ e ∈ evs, f e = some (some x) := by
  induction evs generalizing l with
  | nil =>
      simp only [eventsHits, Option.some.injEq] at hl
      subst hl
      simp
  | cons e t ih =>
      unfold eventsHits at hl
      cases hfe : f e with
      | none => rw [hfe] at hl; exact absurd hl (by simp)
      | some o =>
          rw [hfe] at hl
          cases o with
          | none =>
              rw [ih l hl]
              constructor
              · rintro ⟨e', he', hx⟩
                exact ⟨e', List.mem_cons_of_mem _ he', hx⟩
              · rintro ⟨e', he', hx⟩
                rcases List.mem_cons.mp he' with rfl | he'
                · rw [hfe] at hx
                  exact absurd hx (by simp)
                · exact ⟨e', he', hx⟩
          | some h =>
              obtain ⟨l', hl', rfl⟩ := Option.map_eq_some'.mp hl
              constructor
              · intro hx
                rcases List.mem_cons.mp hx with rfl | hx
                · exact ⟨e, List.mem_cons_self _ _, by rw [hfe]⟩
                · obtain ⟨e', he', hx⟩ := (ih l' hl').mp hx
                  exact ⟨e', List.mem_cons_of_mem _ he', hx⟩
              · rintro ⟨e', he', hx⟩
                rcases List.mem_cons.mp he' with rfl | he'
                · rw [hfe] at hx
                  simp only [Option.some.injEq] at hx
                  subst hx
                  exact List.mem_cons_self _ _
                · exact List.mem_cons_of_mem _ ((ih l' hl').mpr ⟨e', he', hx⟩)

theorem mem_sessionsHits (g : Session → Option (List SearchHit))
    (ss : List Session) (L : List SearchHit)
    (hL : sessionsHits g ss = some L) (x : SearchHit) :
    x ∈ L ↔ ∃ s ∈ ss, ∃ l, g s = some l ∧ x ∈ l := by
  induction ss generalizing L with
  | nil =>
      simp only [sessionsHits, Option.some.injEq] at hL
      subst hL
      simp
  | cons s t ih =>
      unfold sessionsHits at hL
      cases hgs : g s with
      | none => rw [hgs] at hL; exact absurd hL (by simp)
      | some l =>
          rw [hgs] at hL
          obtain ⟨L', hL', rfl⟩ := Option.map_eq_some'.mp hL
          constructor
          · intro hx
            rcases List.mem_append.mp hx with hx | hx
            · exact ⟨s, List.mem_cons_self _ _, l, hgs, hx⟩
            · obtain ⟨s', hs', l', hgs', hx⟩ := (ih L' hL').mp hx
              exact ⟨s', List.mem_cons_of_mem _ hs', l', hgs', hx⟩
          · rintro ⟨s', hs', l', hgs', hx⟩
            rcases List.mem_cons.mp hs' with rfl | hs'
            · rw [hgs] at hgs'
              simp only [Option.some.injEq] at hgs'
              subst hgs'
              exact List.mem_append.mpr (Or.inl hx)
            · exact List.mem_append.mpr
                (Or.inr ((ih L' hL').mpr ⟨s', hs', l', hgs', hx⟩))

theorem sessionsHits_some (g : Session → Option (List SearchHit))
    (ss : List Session) (L : List SearchHit)
    (hL : sessionsHits g ss = some L) (s : Session) (hs : s ∈ ss) :
    ∃ l, g s = some l := by
  induction ss generalizing L with
  | nil => simp at hs
  | cons a t ih =>
      unfold sessionsHits at hL
      cases hga : g a with
      | none => rw [hga] at hL; exact absurd hL (by simp)
      | some l =>
          rw [hga] at hL
          obtain ⟨L2, hL2, rfl⟩ := Option.map_eq_some'.mp hL
          rcases List.mem_cons.mp hs with rfl | hs
          · exact ⟨l, hga⟩
          · exact ih L2 hL2 hs

theorem search_sessions_mem (parse : Str → Option Json)
    (rcompile : Str → Bool → Option (Str → Bool)) (sessions : List Session)
    (args : SearchArgs) (rx : Option (Str → Bool)) (hits : List SearchHit)
    (hrx : compileRx rcompile args = .ok rx)
    (hrun : search_sessions parse rcompile sessions args = some (.ok hits))
    (x : SearchHit) :
    x ∈ hits ↔ ∃ s ∈ sessions, ∃ po, parse_session_events parse false s.lines = some po ∧
      ∃ e ∈ po.events,
        searchEventHit args rx (queryFoldOf args) (queryTokensOf args) s e = some (some x) := by
  unfold search_sessions at hrun
  rw [hrx] at hrun
  obtain ⟨l, hl, hinj⟩ := Option.map_eq_some'.mp hrun
  have hhits : hits = sortHits l := (Except.ok.inj hinj).symm
  subst hhits
  rw [mem_sortHits, mem_sessionsHits _ _ _ hl]
  constructor
  · rintro ⟨s, hs, l', hgs', hx⟩
    unfold sessionHitsOf at hgs'
    obtain ⟨po, hpo, hev⟩ := Option.bind_eq_some.mp hgs'
    exact ⟨s, hs, po, hpo, (mem_eventsHits _ _ _ hev x).mp hx⟩
  · rintro ⟨s, hs, po, hpo, e, he, hx⟩
    obtain ⟨l', hgs'⟩ := sessionsHits_some _ _ _ hl s hs
    have hev : eventsHits (searchEventHit args rx (queryFoldOf args) (queryTokensOf args) s)
        po.events = some l' := by
      have h2 := hgs'
      unfold sessionHitsOf at h2
      rw [hpo, Option.some_bind] at h2
      exact h2
    exact ⟨s, hs, l', hgs', (mem_eventsHits _ _ _ hev x).mpr ⟨e, he, hx⟩⟩

theorem searchEventHit_regex_iff (args : SearchArgs) (f : Str → Bool) (qn : Str)
    (qtoks : List Str) (s : Session) (e : NormalizedEvent) (x : SearchHit)
    (hmode : args.mode = .regex) :
    searchEventHit args (some f) qn qtoks s e = some (some x) ↔
      speakerPass args e = true ∧ f e.content = true ∧
        ∃ pv, build_context_preview e.content args.query args.context_chars
            args.case_sensitive = some pv ∧ x = mkHit s e (0.8 : ℚ) pv := by
  cases hsp : speakerPass args e with
  | false => simp [searchEventHit, hsp]
  | true =>
      cases hf : f e.content with
      | false => simp [searchEventHit, hmode, hsp, hf]
      | true =>
          cases hpv : build_context_preview e.content args.query args.context_chars
              args.case_sensitive with
          | none =>
              simp only [searchEventHit, hmode, hsp, hf, hpv]
              simp only [Bool.true_eq_false, if_false, reduceIte, Option.map_none']
              constructor
              · intro h
                exact Option.noConfusion h
              · rintro ⟨-, -, pv, hpv2, -⟩
                exact Option.noConfusion hpv2
          | some pv =>
              simp only [searchEventHit, hmode, hsp, hf, hpv]
              simp only [Bool.true_eq_false, if_false, reduceIte]
              simp only [Option.map_some', Option.some.injEq]
              constructor
              · intro h
                exact ⟨trivial, trivial, pv, rfl, h.symm⟩
              · rintro ⟨-, -, pv2, hpv2, hx⟩
                cases hpv2
                exact hx.symm

theorem searchEventHit_exact_iff (args : SearchArgs) (rx : Option (Str → Bool))
    (qn : Str) (qtoks : List Str) (s : Session) (e : NormalizedEvent) (x : SearchHit)
    (hmode : args.mode = .exact) :
    searchEventHit args rx qn qtoks s e = some (some x) ↔
      speakerPass args e = true ∧
        strContains (if args.case_sensitive then e.content else lowerStr e.content) qn =
          true ∧
        ∃ pv, build_context_preview e.content args.query args.context_chars
            args.case_sensitive = some pv ∧
          x = mkHit s e
            (min ((0.5 : ℚ) +
              (countMatches (if args.case_sensitive then e.content else lowerStr e.content)
                qn : ℚ) * 0.1) 1) pv := by
  cases hsp : speakerPass args e with
  | false => simp [searchEventHit, hsp]
  | true =>
      cases hc : strContains (if args.case_sensitive then e.content else lowerStr e.content)
          qn with
      | false => simp [searchEventHit, hmode, hsp, hc]
      | true =>
          cases hpv : build_context_preview e.content args.query args.context_chars
              args.case_sensitive with
          | none =>
              simp only [searchEventHit, hmode, hsp, hc, hpv]
              simp only [Bool.true_eq_false, if_false, reduceIte, Option.map_none']
              constructor
              · intro h
                exact Option.noConfusion h
              · rintro ⟨-, -, pv, hpv2, -⟩
                exact Option.noConfusion hpv2
          | some pv =>
              simp only [searchEventHit, hmode, hsp, hc, hpv]
              simp only [Bool.true_eq_false, if_false, reduceIte]
              simp only [Option.map_some', Option.some.injEq]
              constructor
              · intro h
                exact ⟨trivial, trivial, pv, rfl, h.symm⟩
              · rintro ⟨-, -, pv2, hpv2, hx⟩
                cases hpv2
                exact hx.symm

theorem searchEventHit_smart_iff (args : SearchArgs) (rx : Option (Str → Bool))
    (qn : Str) (qtoks : List Str) (s : Session) (e : NormalizedEvent) (x : SearchHit)
    (hmode : args.mode = .smart) :
    searchEventHit args rx qn qtoks s e = some (some x) ↔
      speakerPass args e = true ∧
        (0.15 : ℚ) <
          (if strContains (if args.case_sensitive then e.content else lowerStr e.content)
              qn then (0.6 : ℚ) else 0) +
          (if qtoks.isEmpty then 0
           else ((qtoks.filter (fun t => strContains
              (if args.case_sensitive then e.content else lowerStr e.content) t)).length : ℚ) /
             (qtoks.length : ℚ) * 0.4) ∧
        ∃ pv, build_context_preview e.content args.query args.context_chars
            args.case_sensitive = some pv ∧
          x = mkHit s e
            (min ((if strContains
                (if args.case_sensitive then e.content else lowerStr e.content) qn
              then (0.6 : ℚ) else 0) +
              (if qtoks.isEmpty then 0
               else ((qtoks.filter (fun t => strContains
                  (if args.case_sensitive then e.content else lowerStr e.content)
                  t)).length : ℚ) / (qtoks.length : ℚ) * 0.4)) 1) pv := by
  cases hsp : speakerPass args e with
  | false => simp [searchEventHit, hsp]
  | true =>
      by_cases hth : (0.15 : ℚ) <
          (if strContains (if args.case_sensitive then e.content else lowerStr e.content)
              qn then (0.6 : ℚ) else 0) +
          (if qtoks.isEmpty then 0
           else ((qtoks.filter (fun t => strContains
              (if args.case_sensitive then e.content else lowerStr e.content) t)).length : ℚ) /
             (qtoks.length : ℚ) * 0.4)
      · have hd := decide_eq_true hth
        cases hpv : build_context_preview e.content args.query args.context_chars
            args.case_sensitive with
        | none =>
            simp only [searchEventHit, hmode, hsp, hd, hpv]
            simp only [Bool.true_eq_false, if_false, reduceIte, Option.map_none']
            constructor
            · intro h
              exact Option.noConfusion h
            · rintro ⟨-, -, pv, hpv2, -⟩
              exact Option.noConfusion hpv2
        | some pv =>
            simp only [searchEventHit, hmode, hsp, hd, hpv]
            simp only [Bool.true_eq_false, if_false, reduceIte]
            simp only [Option.map_some', Option.some.injEq]
            constructor
            · intro h
              exact ⟨trivial, hth, pv, rfl, h.symm⟩
            · rintro ⟨-, -, pv2, hpv2, hx⟩
              cases hpv2
              exact hx.symm
      · have hd := decide_eq_false hth
        simp only [searchEventHit, hmode, hsp, hd]
        simp only [Bool.true_eq_false, if_false, reduceIte, Bool.false_eq_true]
        constructor
        · intro h
          exact Option.noConfusion (Option.some.inj h)
        · rintro ⟨-, hth2, -⟩
          exact absurd hth2 hth

theorem ite_nonneg_smartbase (p : Prop) [Decidable p] :
    (0 : ℚ) ≤ if p then (0.6 : ℚ) else 0 := by
  split <;> norm_num

theorem ite_nonneg_tokterm (p : Prop) [Decidable p] (a b : Nat) :
    (0 : ℚ) ≤ if p then (0 : ℚ) else (a : ℚ) / (b : ℚ) * 0.4 := by
  split
  · exact le_refl 0
  · exact mul_nonneg (div_nonneg (Nat.cast_nonneg _) (Nat.cast_nonneg _)) (by norm_num)

/-! ### C5 -/

/-- C5: every SearchHit produced by the search engine, in each of the three
modes and for every query, session list and parameter setting, carries a
relevance score in the closed interval [0, 1]. -/
theorem c5_relevance_bounds (parse : Str → Option Json)
    (rcompile : Str → Bool → Option (Str → Bool)) (sessions : List Session)
    (args : SearchArgs) (hits : List SearchHit)
    (hrun : search_sessions parse rcompile sessions args = some (.ok hits)) :
    ∀ x ∈ hits, 0 ≤ x.relevance ∧ x.relevance ≤ 1 := by
  intro x hx
  cases hcomp : compileRx rcompile args with
  | error msg =>
      unfold search_sessions at hrun
      rw [hcomp] at hrun
      exact absurd (Option.some.inj hrun) (by simp)
  | ok rx =>
      obtain ⟨s, hs, po, hpo, e, he, hev⟩ :=
        (search_sessions_mem parse rcompile sessions args rx hits hcomp hrun x).mp hx
      cases hmode : args.mode with
      | smart =>
          obtain ⟨-, -, pv, -, hxe⟩ :=
            (searchEventHit_smart_iff args rx _ _ s e x hmode).mp hev
          subst hxe
          simp only [mkHit]
          constructor
          · exact le_min (add_nonneg (ite_nonneg_smartbase _) (ite_nonneg_tokterm _ _ _))
              (by norm_num)
          · exact min_le_right _ _
      | exact =>
          obtain ⟨-, -, pv, -, hxe⟩ :=
            (searchEventHit_exact_iff args rx _ _ s e x hmode).mp hev
          subst hxe
          simp only [mkHit]
          constructor
          · refine le_min ?_ (by norm_num)
            have := Nat.cast_nonneg (α := ℚ)
              (countMatches (if args.case_sensitive then e.content else lowerStr e.content)
                (queryFoldOf args))
            nlinarith
          · exact min_le_right _ _
      | regex =>
          have hfex : ∃ f, rx = some f := by
            unfold compileRx at hcomp
            rw [hmode] at hcomp
            cases hrc : rcompile args.query (!args.case_sensitive) with
            | none => rw [hrc] at hcomp; exact absurd hcomp (by simp)
            | some f => rw [hrc] at hcomp; exact ⟨f, (Except.ok.inj hcomp).symm⟩
          obtain ⟨f, rfl⟩ := hfex
          obtain ⟨-, -, pv, -, hxe⟩ :=
            (searchEventHit_regex_iff args f _ _ s e x hmode).mp hev
          subst hxe
          simp only [mkHit]
          norm_num

/-! ### C6 -/

/-- C6: in regex mode, a query that fails to compile makes `search_sessions`
return the error before any session is read (the same error value for every
session list); and when it compiles to a match predicate `f`, a hit is
produced exactly for the events that pass the speaker filter and whose
untransformed content text `f` matches, each with the fixed relevance 0.8;
non-matching events are excluded from the results. -/
theorem c6_regex_semantics (parse : Str → Option Json)
    (rcompile : Str → Bool → Option (Str → Bool)) (args : SearchArgs)
    (hmode : args.mode = .regex) :
    (rcompile args.query (!args.case_sensitive) = none →
      ∀ sessions, search_sessions parse rcompile sessions args =
        some (.error (strOf "Invalid regex: " ++ args.query))) ∧
    (∀ f, rcompile args.query (!args.case_sensitive) = some f →
      ∀ sessions hits,
        search_sessions parse rcompile sessions args = some (.ok hits) →
        ∀ x, x ∈ hits ↔ ∃ s ∈ sessions, ∃ po,
          parse_session_events parse false s.lines = some po ∧
          ∃ e ∈ po.events, speakerPass args e = true ∧ f e.content = true ∧
            ∃ pv, build_context_preview e.content args.query args.context_chars
                args.case_sensitive = some pv ∧ x = mkHit s e (0.8 : ℚ) pv) := by
  constructor
  · intro hrc sessions
    unfold search_sessions compileRx
    rw [hmode, hrc]
  · intro f hrc sessions hits hrun x
    have hcomp : compileRx rcompile args = .ok (some f) := by
      unfold compileRx
      rw [hmode, hrc]
    rw [search_sessions_mem parse rcompile sessions args (some f) hits hcomp hrun x]
    constructor
    · rintro ⟨s, hs, po, hpo, e, he, hev⟩
      obtain ⟨h1, h2, pv, hpv, hx⟩ :=
        (searchEventHit_regex_iff args f _ _ s e x hmode).mp hev
      exact ⟨s, hs, po, hpo, e, he, h1, h2, pv, hpv, hx⟩
    · rintro ⟨s, hs, po, hpo, e, he, h1, h2, pv, hpv, hx⟩
      exact ⟨s, hs, po, hpo, e, he,
        (searchEventHit_regex_iff args f _ _ s e x hmode).mpr ⟨h1, h2, pv, hpv, hx⟩⟩

/-! ### C1 -/

theorem splitWsGo_ne_nil (s : Str) : ∀ acc t, t ∈ splitWsGo s acc → t ≠ [] := by
  induction s with
  | nil =>
      intro acc t ht
      simp only [splitWsGo] at ht
      split at ht
      · simp at ht
      · next hne =>
          simp only [List.mem_singleton] at ht
          subst ht
          simp only [ne_eq, List.reverse_eq_nil_iff]
          intro hacc
          subst hacc
          simp [List.isEmpty_nil] at hne
  | cons c cs ih =>
      intro acc t ht
      simp only [splitWsGo] at ht
      split at ht
      · split at ht
        · exact ih [] t ht
        · next hne =>
            rcases List.mem_cons.mp ht with rfl | ht
            · simp only [ne_eq, List.reverse_eq_nil_iff]
              intro hacc
              subst hacc
              simp [List.isEmpty_nil] at hne
            · exact ih [] t ht
      · exact ih (c :: acc) t ht

theorem queryTokensOf_eq (args : SearchArgs) :
    queryTokensOf args = splitWs (queryFoldOf args) := by
  unfold queryTokensOf
  apply List.filter_eq_self.mpr
  intro t ht
  have hne := splitWsGo_ne_nil (queryFoldOf args) [] t ht
  simpa [List.isEmpty_iff] using hne

/-- C1: for every smart-mode search whose query contains at least one
whitespace-separated token, a hit is produced exactly for the events that
survive the speaker filter and whose spec-formula score — 0.6 when the whole
case-folded query occurs as a substring of the case-folded event text, plus
0.4 times the fraction of query tokens individually found — exceeds 0.15,
and the hit's relevance is that score capped at 1.0. -/
theorem c1_smart_scoring (parse : Str → Option Json)
    (rcompile : Str → Bool → Option (Str → Bool)) (sessions : List Session)
    (args : SearchArgs) (hits : List SearchHit)
    (hmode : args.mode = .smart)
    (htoks : splitWs (queryFoldOf args) ≠ [])
    (hrun : search_sessions parse rcompile sessions args = some (.ok hits)) :
    ∀ x, x ∈ hits ↔ ∃ s ∈ sessions, ∃ po,
      parse_session_events parse false s.lines = some po ∧
      ∃ e ∈ po.events, speakerPass args e = true ∧
        (0.15 : ℚ) < smartScoreSpec args.case_sensitive args.query e.content ∧
        ∃ pv, build_context_preview e.content args.query args.context_chars
            args.case_sensitive = some pv ∧
          x = mkHit s e (min (smartScoreSpec args.case_sensitive args.query e.content) 1)
            pv := by
  have hcomp : compileRx rcompile args = .ok none := by
    unfold compileRx
    rw [hmode]
  have hscore : ∀ e : NormalizedEvent,
      (if strContains (if args.case_sensitive then e.content else lowerStr e.content)
          (queryFoldOf args) then (0.6 : ℚ) else 0) +
        (if (queryTokensOf args).isEmpty then 0
         else (((queryTokensOf args).filter (fun t => strContains
            (if args.case_sensitive then e.content else lowerStr e.content) t)).length : ℚ) /
           ((queryTokensOf args).length : ℚ) * 0.4) =
      smartScoreSpec args.case_sensitive args.query e.content := by
    intro e
    have hem : ¬ ((splitWs (if args.case_sensitive then args.query
        else lowerStr args.query)).isEmpty = true) :=
      fun h => htoks (List.isEmpty_iff.mp h)
    simp only [smartScoreSpec, queryTokensOf_eq, queryFoldOf]
    rw [if_neg hem]
  intro x
  rw [search_sessions_mem parse rcompile sessions args none hits hcomp hrun x]
  constructor
  · rintro ⟨s, hs, po, hpo, e, he, hev⟩
    obtain ⟨h1, h2, pv, hpv, hx⟩ :=
      (searchEventHit_smart_iff args none _ _ s e x hmode).mp hev
    rw [hscore e] at h2 hx
    exact ⟨s, hs, po, hpo, e, he, h1, h2, pv, hpv, hx⟩
  · rintro ⟨s, hs, po, hpo, e, he, h1, h2, pv, hpv, hx⟩
    rw [← hscore e] at h2 hx
    exact ⟨s, hs, po, hpo, e, he,
      (searchEventHit_smart_iff args none _ _ s e x hmode).mpr ⟨h1, h2, pv, hpv, hx⟩⟩

section RatKernelEvalB

attribute [local semireducible] Rat.add Rat.mul Rat.sub Rat.inv Rat.ofScientific

/-- C5 witness: a concrete exact-mode run producing one hit. -/
theorem c5_relevance_bounds_witness :
    ∃ hits, search_sessions parseW rcompileW [sessW] (mkArgsW (strOf "alpha") .exact) =
      some (.ok hits) ∧ ∀ x ∈ hits, 0 ≤ x.relevance ∧ x.relevance ≤ 1 :=
  ⟨_, rfl, fun x hx =>
    c5_relevance_bounds parseW rcompileW [sessW] (mkArgsW (strOf "alpha") .exact) _
      rfl x hx⟩

/-- C6 witness: the pattern "zz" fails to compile and the search returns the
error without reading the session. -/
theorem c6_regex_semantics_witness :
    search_sessions parseW rcompileW [sessW] (mkArgsW (strOf "zz") .regex) =
      some (.error (strOf "Invalid regex: " ++ strOf "zz")) :=
  (c6_regex_semantics parseW rcompileW (mkArgsW (strOf "zz") .regex) rfl).1 rfl [sessW]

/-- C1 witness: smart search for "alpha" produces the hit for the event
"alpha gamma" with spec score 0.6 + 0.4 = 1. -/
theorem c1_smart_scoring_witness :
    ∃ hits, search_sessions parseW rcompileW [sessW] (mkArgsW (strOf "alpha") .smart) =
      some (.ok hits) ∧ mkHit sessW evUserW 1 (strOf "alpha gamm...") ∈ hits := by
  refine ⟨_, rfl, ?_⟩
  refine (c1_smart_scoring parseW rcompileW [sessW] (mkArgsW (strOf "alpha") .smart) _
    rfl (by decide) rfl (mkHit sessW evUserW 1 (strOf "alpha gamm..."))).mpr ?_
  refine ⟨sessW, by simp, _, rfl, evUserW, by decide, by decide, by decide,
    strOf "alpha gamm...", by decide, by decide⟩

end RatKernelEvalB

/-! ### C4 -/

/-- C4: each non-blank line that fails JSON parsing increments the parse-error
count by exactly 1 and contributes zero events, scanning continuing with the
following lines (the normalization of the rest of the file is unchanged
except for that one counter); globally the parse-error count equals the
number of non-blank unparseable lines, and blank lines affect neither the
count nor the events.  A per-line parse failure never turns the normalization
of a file into an error. -/
theorem parse_session_events_cons (parse : Str → Option Json) (detailed : Bool)
    (line : Str) (rest : List Str) :
    parse_session_events parse detailed (line :: rest) =
      (parse_session_events parse detailed rest).bind (fun out =>
        if trimEmpty line then some out
        else
          match parse line with
          | none => some { out with parse_errors := out.parse_errors + 1 }
          | some v =>
              (recordEvent v detailed).bind (fun ev =>
                match ev with
                | none => some out
                | some e => some { out with events := e :: out.events })) := rfl

theorem countBadLines_cons_blank (parse : Str → Option Json) (l : Str)
    (rest : List Str) (hb : trimEmpty l = true) :
    countBadLines parse (l :: rest) = countBadLines parse rest := by
  simp [countBadLines, List.filter_cons, hb]

theorem countBadLines_cons_bad (parse : Str → Option Json) (l : Str)
    (rest : List Str) (hb : trimEmpty l = false) (hp : parse l = none) :
    countBadLines parse (l :: rest) = countBadLines parse rest + 1 := by
  simp [countBadLines, List.filter_cons, hb, hp]

theorem countBadLines_cons_good (parse : Str → Option Json) (l : Str)
    (rest : List Str) (v : Json) (hp : parse l = some v) :
    countBadLines parse (l :: rest) = countBadLines parse rest := by
  simp [countBadLines, List.filter_cons, hp]

theorem c4_parse_error_handling (parse : Str → Option Json) (detailed : Bool) :
    (∀ lines out, parse_session_events parse detailed lines = some out →
      out.parse_errors = countBadLines parse lines) ∧
    (∀ line rest, ¬ trimEmpty line = true → parse line = none →
      parse_session_events parse detailed (line :: rest) =
        (parse_session_events parse detailed rest).map
          (fun out => { out with parse_errors := out.parse_errors + 1 })) ∧
    (∀ line rest, trimEmpty line = true →
      parse_session_events parse detailed (line :: rest) =
        parse_session_events parse detailed rest) := by
  refine ⟨?_, ?_, ?_⟩
  · intro lines
    induction lines with
    | nil =>
        intro out h
        simp only [parse_session_events, Option.some.injEq] at h
        subst h
        rfl
    | cons l rest ih =>
        intro out h
        rw [parse_session_events_cons] at h
        cases hr : parse_session_events parse detailed rest with
        | none => rw [hr] at h; exact absurd h (by simp)
        | some out2 =>
            rw [hr] at h
            simp only [Option.some_bind] at h
            by_cases hb : trimEmpty l = true
            · rw [if_pos hb] at h
              have hout : out2 = out := Option.some.inj h
              subst hout
              rw [countBadLines_cons_blank parse l rest hb]
              exact ih out2 hr
            · rw [if_neg hb] at h
              have hb2 : trimEmpty l = false := by simpa using hb
              cases hp : parse l with
              | none =>
                  rw [hp] at h
                  have hout := Option.some.inj h
                  subst hout
                  rw [countBadLines_cons_bad parse l rest hb2 hp]
                  show out2.parse_errors + 1 = countBadLines parse rest + 1
                  rw [ih out2 hr]
              | some v =>
                  rw [hp] at h
                  have h2 : ((recordEvent v detailed).bind (fun ev =>
                      match ev with
                      | none => some out2
                      | some e => some { out2 with events := e :: out2.events })) =
                      some out := h
                  rw [countBadLines_cons_good parse l rest v hp]
                  cases hrec : recordEvent v detailed with
                  | none => rw [hrec] at h2; exact absurd h2 (by simp)
                  | some ev =>
                      rw [hrec] at h2
                      simp only [Option.some_bind] at h2
                      cases ev with
                      | none =>
                          have hout : out2 = out := Option.some.inj h2
                          subst hout
                          exact ih out2 hr
                      | some e0 =>
                          have hout := Option.some.inj h2
                          subst hout
                          exact ih out2 hr
  · intro line rest hb hp
    rw [parse_session_events_cons]
    cases hr : parse_session_events parse detailed rest with
    | none => simp [hr]
    | some out => simp [hr, hb, hp]
  · intro line rest hbl
    rw [parse_session_events_cons]
    cases hr : parse_session_events parse detailed rest with
    | none => simp [hr]
    | some out => simp [hr, hbl]

/-- C4 witness: a malformed line followed by a good line: one parse error,
events unaffected, matching both the incremental and the global statements. -/
theorem c4_parse_error_handling_witness :
    (∃ out, parse_session_events parseW false [lineBad, lineUser] = some out ∧
      out.parse_errors = countBadLines parseW [lineBad, lineUser] ∧
      out.parse_errors = 1 ∧ out.events = [evUserW]) ∧
    parse_session_events parseW false (lineBad :: [lineUser]) =
      (parse_session_events parseW false [lineUser]).map
        (fun o => { o with parse_errors := o.parse_errors + 1 }) := by
  constructor
  · refine ⟨_, rfl, (c4_parse_error_handling parseW false).1 _ _ rfl, by decide, by decide⟩
  · exact (c4_parse_error_handling parseW false).2.1 lineBad [lineUser] (by decide) rfl

/-! ### C7 -/

theorem trimEmpty_append (a b : Str) :
    trimEmpty (a ++ b) = (trimEmpty a && trimEmpty b) := List.all_append

theorem trimEmpty_append_left (a b : Str) (ha : trimEmpty a = false) :
    trimEmpty (a ++ b) = false := by
  rw [trimEmpty_append, ha]
  rfl

theorem trimEmpty_false_of_head (c : Char) (rest : Str)
    (hc : isRustWhitespace c = false) : trimEmpty (c :: rest) = false := by
  simp [trimEmpty, hc]

theorem digitChar_not_ws (k : Nat) (hk : k < 10) :
    isRustWhitespace (digitChar k) = false := by
  interval_cases k <;> decide

theorem natReprGo_head (fuel : Nat) : ∀ n, n < fuel →
    ∃ k rest, natReprGo fuel n = digitChar k :: rest ∧ k < 10 := by
  induction fuel with
  | zero => intro n hn; omega
  | succ fuel ih =>
      intro n hn
      by_cases h10 : n < 10
      · exact ⟨n, [], by simp [natReprGo, h10], h10⟩
      · obtain ⟨k, rest, hk, hk10⟩ := ih (n / 10) (by
          have := Nat.div_lt_self (show 0 < n by omega) (show 1 < 10 by omega)
          omega)
        refine ⟨k, rest ++ [digitChar (n % 10)], ?_, hk10⟩
        simp [natReprGo, h10, hk]

theorem intRepr_head (i : Int) :
    ∃ c rest, intRepr i = c :: rest ∧ isRustWhitespace c = false := by
  unfold intRepr
  split
  · exact ⟨'-', _, rfl, by decide⟩
  · obtain ⟨k, rest, hk, hk10⟩ := natReprGo_head (i.toNat + 1) i.toNat (by omega)
    exact ⟨digitChar k, rest, by simpa [natRepr] using hk, digitChar_not_ws k hk10⟩

theorem renderJson_head (j : Json) :
    ∃ c rest, renderJson j = c :: rest ∧ isRustWhitespace c = false := by
  cases j with
  | null => exact ⟨'n', strOf "ull", by simp [renderJson]; rfl, by decide⟩
  | bool b =>
      cases b with
      | false => exact ⟨'f', strOf "alse", by simp [renderJson]; rfl, by decide⟩
      | true => exact ⟨'t', strOf "rue", by simp [renderJson]; rfl, by decide⟩
  | num n => simpa [renderJson] using intRepr_head n
  | str s => exact ⟨'"', escJsonStr s ++ ['"'], by simp [renderJson], by decide⟩
  | arr items => exact ⟨'[', renderArr items ++ [']'], by simp [renderJson], by decide⟩
  | obj fields => exact ⟨'{', renderObj fields ++ ['}'], by simp [renderJson], by decide⟩

theorem renderJson_not_blank (j : Json) : trimEmpty (renderJson j) = false := by
  obtain ⟨c, rest, hj, hc⟩ := renderJson_head j
  rw [hj]
  exact trimEmpty_false_of_head c rest hc

theorem ellipsize_not_blank (s : Str) (max : Nat) (t : Str)
    (h : ellipsize s max = some t) (hs : trimEmpty s = false) :
    trimEmpty t = false := by
  unfold ellipsize at h
  split at h
  · cases Option.some.inj h
    exact hs
  · obtain ⟨p, hp, hinj⟩ := Option.map_eq_some'.mp h
    cases hinj
    rw [trimEmpty_append]
    have hdots : trimEmpty (strOf "...") = false := by decide
    rw [hdots]
    simp

theorem truncate_value_not_blank (v : Json) (max : Nat) (t : Str)
    (h : truncate_value v max = some t) : trimEmpty t = false :=
  ellipsize_not_blank _ _ _ h (renderJson_not_blank v)

theorem summarize_not_blank (v : Json) (t : Str)
    (h : summarize_non_dialog_record v = some t) : trimEmpty t = false := by
  unfold summarize_non_dialog_record at h
  dsimp only [] at h
  split at h
  · split at h
    · cases Option.some.inj h
      split
      · exact trimEmpty_append_left (strOf "progress:") _ (by decide)
      · simp only [List.append_assoc]
        exact trimEmpty_append_left (strOf "progress:") _ (by decide)
    · obtain ⟨p, hp, hinj⟩ := Option.map_eq_some'.mp h
      cases hinj
      simp only [List.append_assoc]
      split
      · exact trimEmpty_append_left (strOf "progress:") _ (by decide)
      · simp only [List.append_assoc]
        exact trimEmpty_append_left (strOf "progress:") _ (by decide)
  · split at h
    · cases Option.some.inj h
      exact trimEmpty_append_left (strOf "system:") _ (by decide)
    · split at h
      · cases Option.some.inj h
        exact trimEmpty_append_left (strOf "queue-operation:") _ (by decide)
      · split at h
        · cases Option.some.inj h
          decide
        · exact truncate_value_not_blank v 300 t h

theorem recordEvent_not_blank (v : Json) (detailed : Bool)
    (e0 : NormalizedEvent) (h : recordEvent v detailed = some (some e0)) :
    trimEmpty e0.content = false := by
  unfold recordEvent at h
  dsimp only [] at h
  split at h
  · obtain ⟨text, htext, hmap⟩ := Option.map_eq_some'.mp h
    split at hmap
    · exact absurd hmap (by simp)
    · next hnb =>
        cases Option.some.inj hmap
        simpa using hnb
  · split at h
    · split at h
      · obtain ⟨short, hshort, hinj⟩ := Option.map_eq_some'.mp h
        cases Option.some.inj hinj
        exact summarize_not_blank v short hshort
      · exact absurd h (by simp)
    · split at h
      · obtain ⟨c, hc, hinj⟩ := Option.map_eq_some'.mp h
        cases Option.some.inj hinj
        exact truncate_value_not_blank v 500 c hc
      · exact absurd h (by simp)

/-- C7: every NormalizedEvent emitted by normalization — for every record
kind, in both detail and non-detail mode — has a content string that is
non-empty and not whitespace-only; records whose extracted text is empty or
whitespace are dropped, never emitted. -/
theorem c7_content_never_blank (parse : Str → Option Json) (detailed : Bool) :
    ∀ lines out, parse_session_events parse detailed lines = some out →
      ∀ e ∈ out.events, e.content ≠ [] ∧ trimEmpty e.content = false := by
  intro lines
  induction lines with
  | nil =>
      intro out h
      simp only [parse_session_events, Option.some.injEq] at h
      subst h
      simp
  | cons l rest ih =>
      intro out h
      rw [parse_session_events_cons] at h
      cases hr : parse_session_events parse detailed rest with
      | none => rw [hr] at h; exact absurd h (by simp)
      | some out2 =>
          rw [hr] at h
          simp only [Option.some_bind] at h
          by_cases hb : trimEmpty l = true
          · rw [if_pos hb] at h
            have hout : out2 = out := Option.some.inj h
            subst hout
            exact ih out2 hr
          · rw [if_neg hb] at h
            cases hp : parse l with
            | none =>
                rw [hp] at h
                have hout := Option.some.inj h
                subst hout
                exact fun e he => ih out2 hr e he
            | some v =>
                rw [hp] at h
                have h2 : ((recordEvent v detailed).bind (fun ev =>
                    match ev with
                    | none => some out2
                    | some e => some { out2 with events := e :: out2.events })) =
                    some out := h
                cases hrec : recordEvent v detailed with
                | none => rw [hrec] at h2; exact absurd h2 (by simp)
                | some ev =>
                    rw [hrec] at h2
                    simp only [Option.some_bind] at h2
                    cases ev with
                    | none =>
                        have hout : out2 = out := Option.some.inj h2
                        subst hout
                        exact ih out2 hr
                    | some e0 =>
                        have hout := Option.some.inj h2
                        subst hout
                        intro e he
                        rcases List.mem_cons.mp he with rfl | he
                        · have hnb := recordEvent_not_blank v detailed e hrec
                          refine ⟨?_, hnb⟩
                          intro hnil
                          rw [hnil] at hnb
                          exact absurd hnb (by decide)
                        · exact ih out2 hr e he

/-- C7 witness: a detail-mode run over the witness lines. -/
theorem c7_content_never_blank_witness :
    ∃ out, parse_session_events parseW true [lineUser, lineAsst, lineBad] = some out ∧
      ∀ e ∈ out.events, e.content ≠ [] ∧ trimEmpty e.content = false := by
  refine ⟨_, rfl, ?_⟩
  exact fun e he =>
    c7_content_never_blank parseW true [lineUser, lineAsst, lineBad] _ rfl e he

/-! ### HTML escaping (C9) -/

theorem prefix_append_split (n x y : Str) (h : n <+: x ++ y) :
    n <+: x ∨ (x <+: n ∧ n.drop x.length <+: y ∧ n = x ++ n.drop x.length) := by
  induction x generalizing n with
  | nil =>
      right
      exact ⟨List.nil_prefix, by simpa using h, by simp⟩
  | cons c xs ih =>
      cases n with
      | nil => left; exact List.nil_prefix
      | cons d ds =>
          rw [List.cons_append, List.cons_prefix_cons] at h
          obtain ⟨rfl, hds⟩ := h
          rcases ih ds hds with h1 | ⟨h1, h2, h3⟩
          · left; exact List.cons_prefix_cons.mpr ⟨rfl, h1⟩
          · right
            refine ⟨List.cons_prefix_cons.mpr ⟨rfl, h1⟩, ?_, ?_⟩
            · simpa using h2
            · simpa using congrArg (List.cons d) h3

theorem infix_iff_drop (n l : Str) : n <:+: l ↔ ∃ i, n <+: l.drop i := by
  constructor
  · rintro ⟨pre, post, h⟩
    refine ⟨pre.length, ?_⟩
    rw [← h, List.append_assoc, List.drop_left]
    exact List.prefix_append n post
  · rintro ⟨i, hpre⟩
    exact hpre.isInfix.trans (List.drop_suffix i l).isInfix

theorem infix_append_cases (n a b : Str) (h : n <:+: a ++ b) :
    n <:+: a ∨ n <:+: b ∨
      ∃ n1 n2, n = n1 ++ n2 ∧ n1 ≠ [] ∧ n2 ≠ [] ∧ n1 <:+ a ∧ n2 <+: b := by
  rw [infix_iff_drop] at h
  obtain ⟨i, hpre⟩ := h
  by_cases hia : a.length ≤ i
  · right; left
    rw [List.drop_append_eq_append_drop, List.drop_eq_nil_of_le hia,
      List.nil_append] at hpre
    exact (infix_iff_drop n b).mpr ⟨i - a.length, hpre⟩
  · push_neg at hia
    rw [List.drop_append_eq_append_drop, Nat.sub_eq_zero_of_le hia.le,
      List.drop_zero] at hpre
    rcases prefix_append_split n (a.drop i) b hpre with h1 | ⟨h1, h2, h3⟩
    · left; exact (infix_iff_drop n a).mpr ⟨i, h1⟩
    · by_cases hnil : n.drop (a.drop i).length = []
      · left
        rw [hnil, List.append_nil] at h3
        exact h3 ▸ (List.drop_suffix i a).isInfix
      · by_cases hn1 : a.drop i = []
        · right; left
          rw [hn1] at h2
          simp only [List.length_nil, List.drop_zero] at h2
          exact h2.isInfix
        · right; right
          exact ⟨a.drop i, n.drop (a.drop i).length, h3, hn1, hnil,
            List.drop_suffix i a, h2⟩

theorem suffix_append_split (s x y : Str) (h : s <:+ x ++ y) :
    s <:+ y ∨ (y <:+ s ∧ s.reverse.drop y.length <+: x.reverse) := by
  have h' : s.reverse <+: y.reverse ++ x.reverse := by
    rw [← List.reverse_append]
    exact List.reverse_prefix.mpr h
  rcases prefix_append_split s.reverse y.reverse x.reverse h' with h1 | ⟨h1, h2, -⟩
  · left; exact List.reverse_prefix.mp h1
  · right
    refine ⟨List.reverse_prefix.mp h1, ?_⟩
    rwa [List.length_reverse] at h2

theorem suffix_of_singleton (b : Str) (c : Char) (h : b <:+ [c]) :
    b = [] ∨ b = [c] := by
  obtain ⟨t, ht⟩ := h
  cases t with
  | nil => right; simpa using ht
  | cons d ds =>
      left
      have hl := congrArg List.length ht
      simp only [List.length_append, List.length_cons, List.length_nil] at hl
      exact List.length_eq_zero.mp (by omega)

theorem suffix_of_pair (b : Str) (c d : Char) (h : b <:+ [c, d]) :
    b = [] ∨ b = [d] ∨ b = [c, d] := by
  obtain ⟨t, ht⟩ := h
  cases t with
  | nil => right; right; simpa using ht
  | cons e es =>
      cases es with
      | nil =>
          right; left
          simp only [List.cons_append, List.nil_append, List.cons.injEq] at ht
          exact ht.2
      | cons f fs =>
          left
          have hl := congrArg List.length ht
          simp only [List.length_append, List.length_cons, List.length_nil] at hl
          exact List.length_eq_zero.mp (by omega)

theorem not_suffix_of_isSuffixOf_false {s a : Str} (h : s.isSuffixOf a = false) :
    ¬ s <:+ a := by
  intro hs
  have h2 := List.isSuffixOf_iff_suffix.mpr hs
  rw [h2] at h
  exact Bool.noConfusion h

theorem not_infix_of_strContains_false {n a : Str} (h : strContains a n = false) :
    ¬ n <:+: a := by
  intro hi
  have h2 := (strContains_iff a n).mpr hi
  rw [h2] at h
  exact Bool.noConfusion h

theorem scriptSafe_nil : ScriptSafe [] := by
  refine ⟨rfl, ?_, ?_⟩ <;> decide

theorem scriptSafe_append (a b : Str) (ha : ScriptSafe a) (hb : ScriptSafe b) :
    ScriptSafe (a ++ b) := by
  obtain ⟨ha1, ha2, ha3⟩ := ha
  obtain ⟨hb1, hb2, hb3⟩ := hb
  refine ⟨?_, ?_, ?_⟩
  · rw [Bool.eq_false_iff]
    intro hcon
    rw [strContains_iff] at hcon
    rcases infix_append_cases _ _ _ hcon with h | h | ⟨n1, n2, heq, hn1, hn2, hsuf, hpre⟩
    · exact not_infix_of_strContains_false ha1 h
    · exact not_infix_of_strContains_false hb1 h
    · rcases n1 with _ | ⟨c1, _ | ⟨c2, _ | ⟨c3, n1t⟩⟩⟩
      · exact hn1 rfl
      · have heq' : ('<' :: 's' :: 'c' :: ([] : Str)) = c1 :: n2 := heq
        obtain ⟨h1, h2⟩ := List.cons.inj heq'
        subst h1
        exact not_suffix_of_isSuffixOf_false ha2 hsuf
      · have heq' : ('<' :: 's' :: 'c' :: ([] : Str)) = c1 :: c2 :: n2 := heq
        obtain ⟨h1, rest⟩ := List.cons.inj heq'
        obtain ⟨h2, h3⟩ := List.cons.inj rest
        subst h1; subst h2
        exact not_suffix_of_isSuffixOf_false ha3 hsuf
      · have heq' : ('<' :: 's' :: 'c' :: ([] : Str)) = c1 :: c2 :: c3 :: (n1t ++ n2) := heq
        obtain ⟨-, rest⟩ := List.cons.inj heq'
        obtain ⟨-, rest2⟩ := List.cons.inj rest
        obtain ⟨-, rest3⟩ := List.cons.inj rest2
        exact hn2 (List.append_eq_nil.mp rest3.symm).2
  · rw [Bool.eq_false_iff]
    intro hcon
    rw [List.isSuffixOf_iff_suffix] at hcon
    rcases suffix_append_split _ _ _ hcon with h | ⟨h1, h2⟩
    · exact not_suffix_of_isSuffixOf_false hb2 h
    · rcases suffix_of_singleton b '<' h1 with rfl | rfl
      · have h2' : (strOf "<").reverse <+: a.reverse := h2
        exact not_suffix_of_isSuffixOf_false ha2 (List.reverse_prefix.mp h2')
      · exact not_suffix_of_isSuffixOf_false hb2 (List.suffix_refl _)
  · rw [Bool.eq_false_iff]
    intro hcon
    rw [List.isSuffixOf_iff_suffix] at hcon
    rcases suffix_append_split _ _ _ hcon with h | ⟨h1, h2⟩
    · exact not_suffix_of_isSuffixOf_false hb3 h
    · rcases suffix_of_pair b '<' 's' h1 with rfl | rfl | rfl
      · have h2' : (strOf "<s").reverse <+: a.reverse := h2
        exact not_suffix_of_isSuffixOf_false ha3 (List.reverse_prefix.mp h2')
      · have h2' : (['<'] : Str).reverse <+: a.reverse := h2
        exact not_suffix_of_isSuffixOf_false ha2 (List.reverse_prefix.mp h2')
      · exact not_suffix_of_isSuffixOf_false hb3 (List.suffix_refl _)

theorem scriptSafe_of_no_lt (s : Str) (h : ∀ c ∈ s, c ≠ '<') : ScriptSafe s := by
  refine ⟨?_, ?_, ?_⟩
  · rw [Bool.eq_false_iff]
    intro hcon
    rw [strContains_iff] at hcon
    exact h '<' (hcon.sublist.mem (by decide)) rfl
  · rw [Bool.eq_false_iff]
    intro hcon
    rw [List.isSuffixOf_iff_suffix] at hcon
    exact h '<' (hcon.sublist.mem (by decide)) rfl
  · rw [Bool.eq_false_iff]
    intro hcon
    rw [List.isSuffixOf_iff_suffix] at hcon
    exact h '<' (hcon.sublist.mem (by decide)) rfl

theorem replaceChar_cons (tgt : Char) (rep : Str) (c : Char) (t : Str) :
    replaceChar tgt rep (c :: t) =
      (if c = tgt then rep else [c]) ++ replaceChar tgt rep t := by
  simp [replaceChar]

theorem replaceChar_append (tgt : Char) (rep : Str) (a b : Str) :
    replaceChar tgt rep (a ++ b) = replaceChar tgt rep a ++ replaceChar tgt rep b := by
  simp [replaceChar]

theorem html_escape_cons (c : Char) (t : Str) :
    html_escape (c :: t) = escHtmlChar c ++ html_escape t := by
  unfold html_escape
  rw [replaceChar_cons, replaceChar_append, replaceChar_append, replaceChar_append,
    replaceChar_append]
  congr 1
  by_cases h1 : c = '&'
  · subst h1; decide
  · by_cases h2 : c = '<'
    · subst h2; decide
    · by_cases h3 : c = '>'
      · subst h3; decide
      · by_cases h4 : c = '"'
        · subst h4; decide
        · by_cases h5 : c = Char.ofNat 39
          · subst h5; decide
          · simp [escHtmlChar, replaceChar, h1, h2, h3, h4, h5]

theorem html_escape_eq_flat (s : Str) :
    html_escape s = (s.map escHtmlChar).flatten := by
  induction s with
  | nil => rfl
  | cons c t ih => rw [html_escape_cons, ih]; simp

theorem escHtmlChar_no_lt (c0 c : Char) (hc : c ∈ escHtmlChar c0) : c ≠ '<' := by
  intro h
  subst h
  unfold escHtmlChar at hc
  split at hc
  · exact absurd hc (by decide)
  · split at hc
    · exact absurd hc (by decide)
    · split at hc
      · exact absurd hc (by decide)
      · split at hc
        · exact absurd hc (by decide)
        · split at hc
          · exact absurd hc (by decide)
          · rename_i h1 h2 h3 h4 h5
            rw [List.mem_singleton] at hc
            exact h2 hc.symm

theorem html_escape_no_lt (s : Str) (c : Char) (hc : c ∈ html_escape s) : c ≠ '<' := by
  rw [html_escape_eq_flat, List.mem_flatten] at hc
  obtain ⟨piece, hp, hcp⟩ := hc
  rw [List.mem_map] at hp
  obtain ⟨c0, -, rfl⟩ := hp
  exact escHtmlChar_no_lt c0 c hcp

theorem scriptSafe_html_escape (s : Str) : ScriptSafe (html_escape s) :=
  scriptSafe_of_no_lt _ (fun c hc => html_escape_no_lt s c hc)

theorem natReprGo_mem (fuel n : Nat) (c : Char) (hc : c ∈ natReprGo fuel n) :
    ∃ k, k < 10 ∧ c = digitChar k := by
  induction fuel generalizing n with
  | zero => simp [natReprGo] at hc
  | succ fuel ih =>
      simp only [natReprGo] at hc
      split at hc
      · rename_i hlt
        rw [List.mem_singleton] at hc
        exact ⟨n, hlt, hc⟩
      · rw [List.mem_append] at hc
        rcases hc with hc | hc
        · exact ih _ hc
        · rw [List.mem_singleton] at hc
          exact ⟨n % 10, Nat.mod_lt _ (by omega), hc⟩

theorem digitChar_ne_lt (k : Nat) (hk : k < 10) : digitChar k ≠ '<' := by
  interval_cases k <;> decide

theorem scriptSafe_natRepr (n : Nat) : ScriptSafe (natRepr n) := by
  refine scriptSafe_of_no_lt _ (fun c hc => ?_)
  obtain ⟨k, hk, rfl⟩ := natReprGo_mem _ _ _ hc
  exact digitChar_ne_lt k hk

theorem scriptSafe_of_decide (s : Str)
    (h : strContains s (strOf "<sc") = false ∧ (strOf "<").isSuffixOf s = false ∧
      (strOf "<s").isSuffixOf s = false) : ScriptSafe s := h

set_option maxHeartbeats 1000000 in
theorem scriptSafe_htmlHeader : ScriptSafe htmlHeader :=
  scriptSafe_of_decide _ (by decide)

theorem scriptSafe_sessionCard (d : ExportDocument) : ScriptSafe (sessionCard d) := by
  unfold sessionCard
  apply scriptSafe_append
  · apply scriptSafe_append
    · exact scriptSafe_of_decide _ (by decide)
    · apply scriptSafe_append
      · apply scriptSafe_append
        · apply scriptSafe_append
          · apply scriptSafe_append
            · apply scriptSafe_append
              · apply scriptSafe_append
                · apply scriptSafe_append
                  · apply scriptSafe_append
                    · apply scriptSafe_append
                      · apply scriptSafe_append
                        · exact scriptSafe_of_decide _ (by decide)
                        · exact scriptSafe_html_escape _
                      · exact scriptSafe_of_decide _ (by decide)
                    · exact scriptSafe_html_escape _
                  · exact scriptSafe_of_decide _ (by decide)
                · exact scriptSafe_html_escape _
              · exact scriptSafe_of_decide _ (by decide)
            · exact scriptSafe_html_escape _
          · exact scriptSafe_of_decide _ (by decide)
        · exact scriptSafe_natRepr _
      · exact scriptSafe_of_decide _ (by decide)
  · exact scriptSafe_of_decide _ (by decide)

theorem scriptSafe_eventCard (e : NormalizedEvent) : ScriptSafe (eventCard e) := by
  unfold eventCard
  apply scriptSafe_append
  · apply scriptSafe_append
    · exact scriptSafe_of_decide _ (by decide)
    · apply scriptSafe_append
      · apply scriptSafe_append
        · apply scriptSafe_append
          · apply scriptSafe_append
            · apply scriptSafe_append
              · apply scriptSafe_append
                · exact scriptSafe_of_decide _ (by decide)
                · exact scriptSafe_html_escape _
              · exact scriptSafe_of_decide _ (by decide)
            · exact scriptSafe_html_escape _
          · exact scriptSafe_of_decide _ (by decide)
        · exact scriptSafe_html_escape _
      · exact scriptSafe_of_decide _ (by decide)
  · exact scriptSafe_of_decide _ (by decide)

theorem scriptSafe_renderEvents (evs : List NormalizedEvent) :
    ScriptSafe (renderEvents evs) := by
  induction evs with
  | nil => exact scriptSafe_nil
  | cons e rest ih =>
      show ScriptSafe (eventCard e ++ renderEvents rest)
      exact scriptSafe_append _ _ (scriptSafe_eventCard e) ih

theorem scriptSafe_renderDocs (docs : List ExportDocument) :
    ScriptSafe (renderDocs docs) := by
  induction docs with
  | nil => exact scriptSafe_nil
  | cons d rest ih =>
      show ScriptSafe ((sessionCard d ++ renderEvents d.events) ++ renderDocs rest)
      exact scriptSafe_append _ _
        (scriptSafe_append _ _ (scriptSafe_sessionCard d) (scriptSafe_renderEvents d.events)) ih

theorem scriptSafe_render_html (docs : List ExportDocument) :
    ScriptSafe (render_html docs) := by
  show ScriptSafe ((htmlHeader ++ renderDocs docs) ++ strOf "</body></html>")
  exact scriptSafe_append _ _
    (scriptSafe_append _ _ scriptSafe_htmlHeader (scriptSafe_renderDocs docs))
    (scriptSafe_of_decide _ (by decide))

theorem scriptSafe_no_script {s : Str} (h : ScriptSafe s) :
    strContains s (strOf "<script>") = false := by
  rw [Bool.eq_false_iff]
  intro hcon
  have h2 : strContains s (strOf "<sc") = true :=
    strContains_trans s _ _ hcon (by decide)
  rw [h.1] at h2
  exact Bool.noConfusion h2

theorem renderEvents_mem (e : NormalizedEvent) (evs : List NormalizedEvent)
    (he : e ∈ evs) : ∃ x y, renderEvents evs = x ++ eventCard e ++ y := by
  induction evs with
  | nil => cases he
  | cons e0 rest ih =>
      rcases List.mem_cons.mp he with rfl | hmem
      · refine ⟨[], renderEvents rest, ?_⟩
        show eventCard e ++ renderEvents rest = _
        simp only [List.nil_append]
      · obtain ⟨x, y, hxy⟩ := ih hmem
        refine ⟨eventCard e0 ++ x, y, ?_⟩
        show eventCard e0 ++ renderEvents rest = _
        rw [hxy]
        simp only [List.append_assoc]

theorem renderDocs_mem (d : ExportDocument) (docs : List ExportDocument)
    (hd : d ∈ docs) : ∃ x y, renderDocs docs = x ++ renderDoc d ++ y := by
  induction docs with
  | nil => cases hd
  | cons d0 rest ih =>
      rcases List.mem_cons.mp hd with rfl | hmem
      · refine ⟨[], renderDocs rest, ?_⟩
        show renderDoc d ++ renderDocs rest = _
        simp only [List.nil_append]
      · obtain ⟨x, y, hxy⟩ := ih hmem
        refine ⟨renderDoc d0 ++ x, y, ?_⟩
        show renderDoc d0 ++ renderDocs rest = _
        rw [hxy]
        simp only [List.append_assoc]

theorem render_html_embeds (docs : List ExportDocument) (d : ExportDocument)
    (hd : d ∈ docs) (u m v : Str) (hcard : renderDoc d = u ++ m ++ v) :
    ∃ x y, render_html docs = x ++ m ++ y := by
  obtain ⟨x, y, hxy⟩ := renderDocs_mem d docs hd
  refine ⟨htmlHeader ++ x ++ u, v ++ y ++ strOf "</body></html>", ?_⟩
  show htmlHeader ++ renderDocs docs ++ strOf "</body></html>" = _
  rw [hxy, hcard]
  simp only [List.append_assoc]

theorem renderDoc_event_embeds (d : ExportDocument) (e : NormalizedEvent)
    (he : e ∈ d.events) (u m v : Str) (hcard : eventCard e = u ++ m ++ v) :
    ∃ x y, renderDoc d = x ++ m ++ y := by
  obtain ⟨x, y, hxy⟩ := renderEvents_mem e d.events he
  refine ⟨sessionCard d ++ x ++ u, v ++ y, ?_⟩
  show sessionCard d ++ renderEvents d.events = _
  rw [hxy, hcard]
  simp only [List.append_assoc]

theorem sessionCard_sid (d : ExportDocument) : renderDoc d =
    (strOf "<div class=\"card\">" ++ strOf "<h2>") ++ html_escape d.session_id ++
    (strOf "</h2><div class=\"meta\">project=" ++ html_escape d.project ++
      strOf " modified=" ++ html_escape d.modified_iso ++ strOf " source=" ++
      html_escape d.source_path ++ strOf " events=" ++ natRepr d.event_count ++
      strOf "</div>" ++ strOf "</div>" ++ renderEvents d.events) := by
  show sessionCard d ++ renderEvents d.events = _
  unfold sessionCard
  simp only [List.append_assoc]

theorem sessionCard_proj (d : ExportDocument) : renderDoc d =
    (strOf "<div class=\"card\">" ++ strOf "<h2>" ++ html_escape d.session_id ++
      strOf "</h2><div class=\"meta\">project=") ++ html_escape d.project ++
    (strOf " modified=" ++ html_escape d.modified_iso ++ strOf " source=" ++
      html_escape d.source_path ++ strOf " events=" ++ natRepr d.event_count ++
      strOf "</div>" ++ strOf "</div>" ++ renderEvents d.events) := by
  show sessionCard d ++ renderEvents d.events = _
  unfold sessionCard
  simp only [List.append_assoc]

theorem sessionCard_mod (d : ExportDocument) : renderDoc d =
    (strOf "<div class=\"card\">" ++ strOf "<h2>" ++ html_escape d.session_id ++
      strOf "</h2><div class=\"meta\">project=" ++ html_escape d.project ++
      strOf " modified=") ++ html_escape d.modified_iso ++
    (strOf " source=" ++ html_escape d.source_path ++ strOf " events=" ++
      natRepr d.event_count ++ strOf "</div>" ++ strOf "</div>" ++
      renderEvents d.events) := by
  show sessionCard d ++ renderEvents d.events = _
  unfold sessionCard
  simp only [List.append_assoc]

theorem sessionCard_src (d : ExportDocument) : renderDoc d =
    (strOf "<div class=\"card\">" ++ strOf "<h2>" ++ html_escape d.session_id ++
      strOf "</h2><div class=\"meta\">project=" ++ html_escape d.project ++
      strOf " modified=" ++ html_escape d.modified_iso ++ strOf " source=") ++
    html_escape d.source_path ++
    (strOf " events=" ++ natRepr d.event_count ++ strOf "</div>" ++ strOf "</div>" ++
      renderEvents d.events) := by
  show sessionCard d ++ renderEvents d.events = _
  unfold sessionCard
  simp only [List.append_assoc]

theorem eventCard_role (e : NormalizedEvent) : eventCard e =
    (strOf "<div class=\"card\">" ++ strOf "<h2>[") ++ html_escape e.role ++
    (strOf "] " ++ html_escape (e.timestamp.getD (strOf "-")) ++ strOf "</h2><pre>" ++
      html_escape e.content ++ strOf "</pre>" ++ strOf "</div>") := by
  unfold eventCard
  simp only [List.append_assoc]

theorem eventCard_ts (e : NormalizedEvent) : eventCard e =
    (strOf "<div class=\"card\">" ++ strOf "<h2>[" ++ html_escape e.role ++ strOf "] ") ++
    html_escape (e.timestamp.getD (strOf "-")) ++
    (strOf "</h2><pre>" ++ html_escape e.content ++ strOf "</pre>" ++ strOf "</div>") := by
  unfold eventCard
  simp only [List.append_assoc]

theorem eventCard_content (e : NormalizedEvent) : eventCard e =
    (strOf "<div class=\"card\">" ++ strOf "<h2>[" ++ html_escape e.role ++ strOf "] " ++
      html_escape (e.timestamp.getD (strOf "-")) ++ strOf "</h2>") ++
    (strOf "<pre>" ++ html_escape e.content ++ strOf "</pre>") ++ strOf "</div>" := by
  have h1 : (strOf "</h2><pre>" : Str) = strOf "</h2>" ++ strOf "<pre>" := rfl
  unfold eventCard
  rw [h1]
  simp only [List.append_assoc]

/-- C9: HTML escaping. First, `html_escape` is exactly the per-character entity
map: every occurrence of `&`, `<`, `>`, `"` and `'` is replaced by its HTML
entity and all other characters are kept. Second, in the output of
`render_html` every interpolated field — session id, project, modified time,
source path, and each event's role, timestamp and content — appears in its
escaped form (the content between the literal `<pre>`/`</pre>` tags). Third,
the rendered HTML never contains the substring `<script>`, whatever the
unescaped field contents hold. -/
theorem c9_html_escaping :
    (∀ s : Str, html_escape s = (s.map escHtmlChar).flatten) ∧
    (∀ docs : List ExportDocument, ∀ d ∈ docs,
      (∃ x y, render_html docs = x ++ html_escape d.session_id ++ y) ∧
      (∃ x y, render_html docs = x ++ html_escape d.project ++ y) ∧
      (∃ x y, render_html docs = x ++ html_escape d.modified_iso ++ y) ∧
      (∃ x y, render_html docs = x ++ html_escape d.source_path ++ y) ∧
      (∀ e ∈ d.events,
        (∃ x y, render_html docs = x ++ html_escape e.role ++ y) ∧
        (∃ x y, render_html docs =
          x ++ html_escape (e.timestamp.getD (strOf "-")) ++ y) ∧
        (∃ x y, render_html docs =
          x ++ (strOf "<pre>" ++ html_escape e.content ++ strOf "</pre>") ++ y))) ∧
    (∀ docs : List ExportDocument,
      strContains (render_html docs) (strOf "<script>") = false) := by
  refine ⟨html_escape_eq_flat, ?_,
    fun docs => scriptSafe_no_script (scriptSafe_render_html docs)⟩
  intro docs d hd
  refine ⟨render_html_embeds docs d hd _ _ _ (sessionCard_sid d),
    render_html_embeds docs d hd _ _ _ (sessionCard_proj d),
    render_html_embeds docs d hd _ _ _ (sessionCard_mod d),
    render_html_embeds docs d hd _ _ _ (sessionCard_src d), ?_⟩
  intro e he
  obtain ⟨u1, v1, h1⟩ := renderDoc_event_embeds d e he _ _ _ (eventCard_role e)
  obtain ⟨u2, v2, h2⟩ := renderDoc_event_embeds d e he _ _ _ (eventCard_ts e)
  obtain ⟨u3, v3, h3⟩ := renderDoc_event_embeds d e he _ _ _ (eventCard_content e)
  exact ⟨render_html_embeds docs d hd _ _ _ h1,
    render_html_embeds docs d hd _ _ _ h2,
    render_html_embeds docs d hd _ _ _ h3⟩

/-- C9 witness: on the concrete witness document, the escaped content of the
witness user event appears between `<pre>` tags, and `<script>` does not occur
in the rendered page. -/
theorem c9_html_escaping_witness :
    html_escape (strOf "a<b") = ((strOf "a<b").map escHtmlChar).flatten ∧
    (∃ x y, render_html [docW] =
      x ++ (strOf "<pre>" ++ html_escape evUserW.content ++ strOf "</pre>") ++ y) ∧
    strContains (render_html [docW]) (strOf "<script>") = false := by
  refine ⟨c9_html_escaping.1 (strOf "a<b"), ?_, c9_html_escaping.2.2 [docW]⟩
  exact ((c9_html_escaping.2.1 [docW] docW (List.mem_singleton.mpr rfl)).2.2.2.2 evUserW
    (List.mem_cons_self _ _)).2.2

/-! ### Detail-mode superset (C3) -/

theorem occursFrom_weaken (t : Str) (ps : List Str) (i i' : Nat) (hle : i' ≤ i)
    (h : occursFrom t ps i) : occursFrom t ps i' := by
  cases ps with
  | nil => exact trivial
  | cons p ps =>
      obtain ⟨j, hij, hpre, hrest⟩ := h
      exact ⟨j, Nat.le_trans hle hij, hpre, hrest⟩

theorem occursFrom_prepend (u t : Str) (ps : List Str) (i : Nat)
    (h : occursFrom t ps i) : occursFrom (u ++ t) ps (u.length + i) := by
  induction ps generalizing i with
  | nil => exact trivial
  | cons p ps ih =>
      obtain ⟨j, hij, hpre, hrest⟩ := h
      refine ⟨u.length + j, Nat.add_le_add_left hij u.length, ?_, ?_⟩
      · have hdrop : (u ++ t).drop (u.length + j) = t.drop j := by
          rw [List.drop_append_eq_append_drop, List.drop_eq_nil_of_le (by omega),
            List.nil_append]
          congr 1
          omega
        rw [hdrop]
        exact hpre
      · have h2 := ih (j + p.length) hrest
        rwa [← Nat.add_assoc] at h2

theorem occurs_join (psF psT : List Str) (h : List.Sublist psF psT) :
    occursFrom (joinNl psT) psF 0 := by
  induction h with
  | slnil => exact trivial
  | cons a hs ih =>
      rename_i l₁ l₂
      cases l₂ with
      | nil =>
          rw [List.sublist_nil] at hs
          subst hs
          exact trivial
      | cons b bs =>
          have hjoin : joinNl (a :: b :: bs) = (a ++ ['\n']) ++ joinNl (b :: bs) := by
            show a ++ '\n' :: joinNl (b :: bs) = _
            simp
          rw [hjoin]
          have h1 := occursFrom_prepend (a ++ ['\n']) _ _ 0 ih
          exact occursFrom_weaken _ _ _ 0 (Nat.zero_le _) h1
  | cons₂ a hs ih =>
      rename_i l₁ l₂
      cases l₂ with
      | nil =>
          rw [List.sublist_nil] at hs
          subst hs
          refine ⟨0, Nat.le_refl 0, ?_, True.intro⟩
          exact List.isPrefixOf_iff_prefix.mpr (List.prefix_refl a)
      | cons b bs =>
          have hjoin : joinNl (a :: b :: bs) = (a ++ ['\n']) ++ joinNl (b :: bs) := by
            show a ++ '\n' :: joinNl (b :: bs) = _
            simp
          rw [hjoin]
          refine ⟨0, Nat.le_refl 0, ?_, ?_⟩
          · exact List.isPrefixOf_iff_prefix.mpr
              ((List.prefix_append a ['\n']).trans
                (List.prefix_append (a ++ ['\n']) (joinNl (b :: bs))))
          · have h1 := occursFrom_prepend (a ++ ['\n']) _ _ 0 ih
            refine occursFrom_weaken _ _ _ _ ?_ h1
            have hlen : (a ++ ['\n']).length = a.length + 1 := by simp
            omega

theorem occursFrom_infix (t : Str) (ps : List Str) (i : Nat) (h : occursFrom t ps i)
    (p : Str) (hp : p ∈ ps) : p <:+: t := by
  induction ps generalizing i with
  | nil => cases hp
  | cons q qs ih =>
      obtain ⟨j, hij, hpre, hrest⟩ := h
      rcases List.mem_cons.mp hp with rfl | hp
      · exact (infix_iff_drop p t).mpr ⟨j, List.isPrefixOf_iff_prefix.mp hpre⟩
      · exact ih _ hrest hp

theorem trimEmpty_false_iff (s : Str) :
    trimEmpty s = false ↔ ∃ c ∈ s, isRustWhitespace c = false := by
  unfold trimEmpty
  induction s with
  | nil => simp
  | cons c t ih =>
      rw [List.all_cons]
      cases hc : isRustWhitespace c with
      | false => simp [hc]
      | true => simp [hc, ih]

theorem mem_joinNl (ps : List Str) (c : Char) : c ∈ joinNl ps →
    c = '\n' ∨ ∃ p ∈ ps, c ∈ p := by
  induction ps with
  | nil => intro hc; cases hc
  | cons p rest ih =>
      intro hc
      cases rest with
      | nil =>
          right
          exact ⟨p, List.mem_cons_self _ _, hc⟩
      | cons q rs =>
          have hc' : c ∈ p ++ '\n' :: joinNl (q :: rs) := hc
          rw [List.mem_append] at hc'
          rcases hc' with h | h
          · right; exact ⟨p, List.mem_cons_self _ _, h⟩
          · rcases List.mem_cons.mp h with rfl | h
            · left; rfl
            · rcases ih h with h | ⟨p', hp', hcp'⟩
              · left; exact h
              · right; exact ⟨p', List.mem_cons_of_mem p hp', hcp'⟩

theorem contentEmbeds_refl (s : Str) : contentEmbeds s s := by
  refine ⟨[s], rfl, ⟨0, Nat.le_refl 0, ?_, True.intro⟩⟩
  exact List.isPrefixOf_iff_prefix.mpr (List.prefix_refl s)

theorem trim_false_of_embeds (aF aT : Str) (hemb : contentEmbeds aF aT)
    (hne : trimEmpty aF = false) : trimEmpty aT = false := by
  obtain ⟨ps, rfl, hocc⟩ := hemb
  rw [trimEmpty_false_iff] at hne ⊢
  obtain ⟨c, hc, hcw⟩ := hne
  rcases mem_joinNl ps c hc with rfl | ⟨p, hp, hcp⟩
  · exact absurd hcw (by decide)
  · have hinf := occursFrom_infix aT ps 0 hocc p hp
    exact ⟨c, hinf.sublist.mem hcp, hcw⟩

theorem itemParts_false_sublist (item : Json) (psT : List Str)
    (hT : itemParts true item = some psT) :
    ∃ psF, itemParts false item = some psF ∧ List.Sublist psF psT := by
  cases item with
  | obj fields =>
      by_cases ht : ((getStrField (Json.obj fields) (strOf "type")).getD []) = strOf "text"
      · refine ⟨psT, ?_, List.Sublist.refl psT⟩
        rw [← hT]
        unfold itemParts
        dsimp only []
        rw [if_pos ht, if_pos ht]
      · refine ⟨[], ?_, List.nil_sublist psT⟩
        unfold itemParts
        dsimp only []
        rw [if_neg ht]
        rw [if_neg (fun hh => Bool.noConfusion hh.2), if_neg (fun hh => Bool.noConfusion hh.2),
          if_neg (fun hh => Bool.noConfusion hh.2), if_neg (fun hh => Bool.noConfusion hh.2),
          if_neg (fun hh => Bool.noConfusion hh.2)]
  | str s =>
      have hT2 : some [s] = some psT := hT
      obtain rfl := Option.some.inj hT2
      exact ⟨[s], rfl, List.Sublist.refl _⟩
  | null =>
      have hT2 : some ([] : List Str) = some psT := hT
      obtain rfl := Option.some.inj hT2
      exact ⟨[], rfl, List.Sublist.refl _⟩
  | bool b =>
      have hT2 : some ([] : List Str) = some psT := hT
      obtain rfl := Option.some.inj hT2
      exact ⟨[], rfl, List.Sublist.refl _⟩
  | num n =>
      have hT2 : some ([] : List Str) = some psT := hT
      obtain rfl := Option.some.inj hT2
      exact ⟨[], rfl, List.Sublist.refl _⟩
  | arr xs =>
      have hT2 : some ([] : List Str) = some psT := hT
      obtain rfl := Option.some.inj hT2
      exact ⟨[], rfl, List.Sublist.refl _⟩

theorem contentParts_cons (detailed : Bool) (item : Json) (rest : List Json) :
    contentParts detailed (item :: rest) = (itemParts detailed item).bind (fun ps =>
      (contentParts detailed rest).bind (fun tail => some (ps ++ tail))) := rfl

theorem contentParts_false_sublist (items : List Json) (psT : List Str)
    (hT : contentParts true items = some psT) :
    ∃ psF, contentParts false items = some psF ∧ List.Sublist psF psT := by
  induction items generalizing psT with
  | nil =>
      have hT2 : some ([] : List Str) = some psT := hT
      obtain rfl := Option.some.inj hT2
      exact ⟨[], rfl, List.Sublist.refl _⟩
  | cons item rest ih =>
      rw [contentParts_cons] at hT
      cases hit : itemParts true item with
      | none => rw [hit] at hT; exact absurd hT (by simp)
      | some ps =>
          rw [hit] at hT
          simp only [Option.some_bind] at hT
          cases hrest : contentParts true rest with
          | none => rw [hrest] at hT; exact absurd hT (by simp)
          | some tail =>
              rw [hrest] at hT
              simp only [Option.some_bind, Option.some.injEq] at hT
              obtain ⟨psF, hF1, hsub1⟩ := itemParts_false_sublist item ps hit
              obtain ⟨tailF, hF2, hsub2⟩ := ih tail hrest
              refine ⟨psF ++ tailF, ?_, ?_⟩
              · rw [contentParts_cons, hF1, hF2]
                simp only [Option.some_bind]
              · rw [← hT]
                exact hsub1.append hsub2

theorem ecc_refines (content : Json) (textT : Str)
    (hT : extract_content_text content true = some textT) :
    ∃ textF, extract_content_text content false = some textF ∧
      contentEmbeds textF textT := by
  cases content with
  | str s =>
      have hT2 : some s = some textT := hT
      obtain rfl := Option.some.inj hT2
      exact ⟨s, rfl, contentEmbeds_refl s⟩
  | arr items =>
      have hT2 : (contentParts true items).map joinNl = some textT := hT
      cases hps : contentParts true items with
      | none => rw [hps] at hT2; exact absurd hT2 (by simp)
      | some psT =>
          rw [hps] at hT2
          simp only [Option.map_some', Option.some.injEq] at hT2
          obtain ⟨psF, hpsF, hsub⟩ := contentParts_false_sublist items psT hps
          refine ⟨joinNl psF, ?_, ?_⟩
          · show (contentParts false items).map joinNl = _
            rw [hpsF]
            simp only [Option.map_some']
          · refine ⟨psF, rfl, ?_⟩
            rw [← hT2]
            exact occurs_join psF psT hsub
  | null => exact ⟨textT, hT, contentEmbeds_refl textT⟩
  | bool b => exact ⟨textT, hT, contentEmbeds_refl textT⟩
  | num n => exact ⟨textT, hT, contentEmbeds_refl textT⟩
  | obj fields => exact ⟨textT, hT, contentEmbeds_refl textT⟩

theorem emt_refines (v : Json) (textT : Str)
    (hT : extract_message_text v true = some textT) :
    ∃ textF, extract_message_text v false = some textF ∧
      contentEmbeds textF textT := by
  unfold extract_message_text at hT ⊢
  cases hmsg : jget v (strOf "message") with
  | none =>
      simp only [hmsg] at hT ⊢
      obtain rfl := Option.some.inj hT
      exact ⟨[], rfl, contentEmbeds_refl []⟩
  | some message =>
      simp only [hmsg] at hT ⊢
      cases hcont : jget message (strOf "content") with
      | none =>
          simp only [hcont] at hT ⊢
          obtain rfl := Option.some.inj hT
          exact ⟨[], rfl, contentEmbeds_refl []⟩
      | some content =>
          simp only [hcont] at hT ⊢
          exact ecc_refines content textT hT

theorem recordEvent_dialog (v : Json) (detailed : Bool)
    (h : (getStrField v (strOf "type")).getD (strOf "unknown") = strOf "user" ∨
      (getStrField v (strOf "type")).getD (strOf "unknown") = strOf "assistant") :
    recordEvent v detailed = (extract_message_text v detailed).map (fun text =>
      if trimEmpty text then none
      else some { role := (getStrField v (strOf "type")).getD (strOf "unknown"),
                  source_type := (getStrField v (strOf "type")).getD (strOf "unknown"),
                  timestamp := getStrField v (strOf "timestamp"),
                  content := text }) := by
  unfold recordEvent
  dsimp only []
  rw [if_pos h]

theorem recordEvent_false_nondialog (v : Json)
    (h : ¬ ((getStrField v (strOf "type")).getD (strOf "unknown") = strOf "user" ∨
      (getStrField v (strOf "type")).getD (strOf "unknown") = strOf "assistant")) :
    recordEvent v false = some none := by
  unfold recordEvent
  dsimp only []
  rw [if_neg h]
  split
  · rfl
  · rfl

theorem recordEvent_dialog_some (v : Json) (eF : NormalizedEvent)
    (evT : Option NormalizedEvent)
    (hdia : (getStrField v (strOf "type")).getD (strOf "unknown") = strOf "user" ∨
      (getStrField v (strOf "type")).getD (strOf "unknown") = strOf "assistant")
    (hF : recordEvent v false = some (some eF)) (hT : recordEvent v true = some evT) :
    ∃ eT, evT = some eT ∧ eventRefines eF eT ∧
      (eT.role = strOf "user" ∨ eT.role = strOf "assistant") ∧
      (eF.role = strOf "user" ∨ eF.role = strOf "assistant") := by
  rw [recordEvent_dialog v false hdia] at hF
  rw [recordEvent_dialog v true hdia] at hT
  cases hmF : extract_message_text v false with
  | none => rw [hmF] at hF; exact absurd hF (by simp)
  | some textF =>
  cases hmT : extract_message_text v true with
  | none => rw [hmT] at hT; exact absurd hT (by simp)
  | some textT =>
  rw [hmF] at hF
  rw [hmT] at hT
  simp only [Option.map_some', Option.some.injEq] at hF hT
  obtain ⟨textF', hmF', hembed⟩ := emt_refines v textT hmT
  have htx : textF' = textF := Option.some.inj (hmF'.symm.trans hmF)
  subst htx
  by_cases htF : trimEmpty textF' = true
  · rw [if_pos htF] at hF
    exact absurd hF (by simp)
  · rw [if_neg htF] at hF
    have htT : trimEmpty textT = false :=
      trim_false_of_embeds textF' textT hembed (Bool.eq_false_iff.mpr htF)
    rw [htT] at hT
    simp only [Bool.false_eq_true, if_false] at hT
    have heF := Option.some.inj hF
    refine ⟨_, hT.symm, ?_, hdia, ?_⟩
    · rw [← heF]
      exact ⟨rfl, rfl, rfl, hembed⟩
    · rw [← heF]
      exact hdia

theorem dialogOnly_cons_pos (e : NormalizedEvent) (evs : List NormalizedEvent)
    (h : e.role = strOf "user" ∨ e.role = strOf "assistant") :
    dialogOnly (e :: evs) = e :: dialogOnly evs := by
  unfold dialogOnly
  rw [List.filter_cons_of_pos]
  rcases h with h | h <;> simp [h]

theorem sublist_dialogOnly_cons (d : List NormalizedEvent) (e : NormalizedEvent)
    (evs : List NormalizedEvent) (h : List.Sublist d (dialogOnly evs)) :
    List.Sublist d (dialogOnly (e :: evs)) := by
  unfold dialogOnly at h ⊢
  by_cases hc : ((fun e => decide (e.role = strOf "user") ||
      decide (e.role = strOf "assistant")) e = true)
  · rw [List.filter_cons_of_pos (p := fun x : NormalizedEvent =>
      decide (x.role = strOf "user") || decide (x.role = strOf "assistant")) hc]
    exact List.Sublist.cons e h
  · rw [List.filter_cons_of_neg (p := fun x : NormalizedEvent =>
      decide (x.role = strOf "user") || decide (x.role = strOf "assistant")) hc]
    exact h

/-- C3: detail-mode superset. Whenever both the non-detail and the detail run
of `parse_session_events` over the same lines succeed, the non-detail events
restricted to the roles `user`/`assistant` refine, in order, a subsequence of
the detail-mode events restricted to the same roles: matching events agree on
role, source type and timestamp, and every piece of text kept by non-detail
extraction occurs, in order, inside the corresponding detail-mode content —
detail mode never drops text that non-detail mode keeps, it only adds more. -/
theorem c3_detail_superset (parse : Str → Option Json) :
    ∀ lines outF outT,
      parse_session_events parse false lines = some outF →
      parse_session_events parse true lines = some outT →
      ∃ d, List.Sublist d (dialogOnly outT.events) ∧
        List.Forall₂ eventRefines (dialogOnly outF.events) d := by
  intro lines
  induction lines with
  | nil =>
      intro outF outT hF hT
      simp only [parse_session_events, Option.some.injEq] at hF hT
      subst hF
      subst hT
      exact ⟨[], List.nil_sublist _, List.Forall₂.nil⟩
  | cons l rest ih =>
      intro outF outT hF hT
      rw [parse_session_events_cons] at hF hT
      cases hrF : parse_session_events parse false rest with
      | none => rw [hrF] at hF; exact absurd hF (by simp)
      | some outF' =>
      cases hrT : parse_session_events parse true rest with
      | none => rw [hrT] at hT; exact absurd hT (by simp)
      | some outT' =>
      rw [hrF] at hF
      rw [hrT] at hT
      simp only [Option.some_bind] at hF hT
      obtain ⟨d, hdsub, hdall⟩ := ih outF' outT' hrF hrT
      by_cases hb : trimEmpty l = true
      · rw [if_pos hb] at hF hT
        have h1 : outF' = outF := Option.some.inj hF
        have h2 : outT' = outT := Option.some.inj hT
        subst h1
        subst h2
        exact ⟨d, hdsub, hdall⟩
      · rw [if_neg hb] at hF hT
        cases hp : parse l with
        | none =>
            rw [hp] at hF hT
            have h1 := Option.some.inj hF
            have h2 := Option.some.inj hT
            subst h1
            subst h2
            exact ⟨d, hdsub, hdall⟩
        | some v =>
            rw [hp] at hF hT
            have hF2 : ((recordEvent v false).bind (fun ev =>
                match ev with
                | none => some outF'
                | some e => some { outF' with events := e :: outF'.events })) =
                some outF := hF
            have hT2 : ((recordEvent v true).bind (fun ev =>
                match ev with
                | none => some outT'
                | some e => some { outT' with events := e :: outT'.events })) =
                some outT := hT
            clear hF hT
            cases hrecF : recordEvent v false with
            | none => rw [hrecF] at hF2; exact absurd hF2 (by simp)
            | some evF =>
            cases hrecT : recordEvent v true with
            | none => rw [hrecT] at hT2; exact absurd hT2 (by simp)
            | some evT =>
            rw [hrecF] at hF2
            rw [hrecT] at hT2
            simp only [Option.some_bind] at hF2 hT2
            cases evF with
            | none =>
                have h1 : outF' = outF := Option.some.inj hF2
                subst h1
                cases evT with
                | none =>
                    have h2 : outT' = outT := Option.some.inj hT2
                    subst h2
                    exact ⟨d, hdsub, hdall⟩
                | some eT =>
                    have h2 := Option.some.inj hT2
                    subst h2
                    refine ⟨d, ?_, hdall⟩
                    show List.Sublist d (dialogOnly (eT :: outT'.events))
                    exact sublist_dialogOnly_cons d eT outT'.events hdsub
            | some eF =>
                have h1 := Option.some.inj hF2
                subst h1
                by_cases hdia :
                    ((getStrField v (strOf "type")).getD (strOf "unknown") = strOf "user" ∨
                     (getStrField v (strOf "type")).getD (strOf "unknown") = strOf "assistant")
                · obtain ⟨eT, hevT, href, hroleT, hroleF⟩ :=
                    recordEvent_dialog_some v eF evT hdia hrecF hrecT
                  subst hevT
                  have h2 := Option.some.inj hT2
                  subst h2
                  show ∃ d', List.Sublist d' (dialogOnly (eT :: outT'.events)) ∧
                    List.Forall₂ eventRefines (dialogOnly (eF :: outF'.events)) d'
                  rw [dialogOnly_cons_pos eT _ hroleT, dialogOnly_cons_pos eF _ hroleF]
                  exact ⟨eT :: d, List.Sublist.cons₂ eT hdsub, List.Forall₂.cons href hdall⟩
                · rw [recordEvent_false_nondialog v hdia] at hrecF
                  exact absurd (Option.some.inj hrecF) (by simp)

/-- C3 witness: both runs over the witness lines, with the resulting
refinement between the two dialog event lists. -/
theorem c3_detail_superset_witness :
    ∃ outF outT d,
      parse_session_events parseW false [lineUser, lineAsst, lineBad] = some outF ∧
      parse_session_events parseW true [lineUser, lineAsst, lineBad] = some outT ∧
      List.Sublist d (dialogOnly outT.events) ∧
      List.Forall₂ eventRefines (dialogOnly outF.events) d := by
  obtain ⟨d, h1, h2⟩ :=
    c3_detail_superset parseW [lineUser, lineAsst, lineBad] _ _ rfl rfl
  exact ⟨_, _, d, rfl, rfl, h1, h2⟩

end CcConvo
